import Mathlib

/-!
Verification of the VieMedChat retrieval core against its specification.

Shallow embedding of:
- `backend/preprocessing/parent_child_chunker.py` (`_merge_small_children`,
  `_find_sentence_boundary`)
- `backend/preprocessing/header_injection.py` (`HeaderInjector`)
- `backend/preprocessing/vietnamese_segmenter.py` (`_segment_fallback`)
- `backend/routes/rag/search.py` (`hybrid_search`, `get_context`)
- `backend/routes/rag/reranker.py` (`rerank`, BAAI backend)
- `backend/evaluation/rag_evaluator.py` (`calculate_ndcg_at_k`)

Python floats are modelled by `ℚ` (exact) except for the NDCG metric where
`np.log2` forces `ℝ` with `Real.logb 2`.  Python strings are Lean `String`s /
`List Char` (both index by code points, as Python does).
-/

namespace VieMedChat

/-! ## Definitions: hybrid search (`search.py`, `Searching.hybrid_search`) -/

/-- A retrieved document as used by `hybrid_search`: only its `page_content`
matters there. -/
structure Doc where
  page_content : String
  deriving DecidableEq, Repr

/-- `doc.page_content[:100]`, the dedup key used in `hybrid_search`. -/
def fingerprint (s : String) : String := s.take 100

/-- The admission loop of `hybrid_search`: for each doc, compute the first-100
character key; if unseen, record it in `seen_content` and append the doc to
`merged_docs`.  (Python uses a `set`; membership in a list of keys has the same
semantics.) -/
def admitLoop (seen : List String) (acc : List Doc) : List Doc → List String × List Doc
  | [] => (seen, acc)
  | d :: ds =>
    if fingerprint d.page_content ∈ seen then admitLoop seen acc ds
    else admitLoop (fingerprint d.page_content :: seen) (acc ++ [d]) ds

/-- `Searching.hybrid_search`: BM25 docs truncated to
`int(k2 * bm25_weight / (vector_weight + bm25_weight))` are admitted first,
then vector docs truncated to `int(k1 * vector_weight / (...))`, skipping
already-seen fingerprints.  The two external searches are inputs
(`bm25_docs`, `vector_docs`). -/
def hybrid_search (k1 k2 : ℕ) (vector_weight bm25_weight : ℚ)
    (vector_docs bm25_docs : List Doc) : List Doc :=
  let nLex := (⌊(k2 : ℚ) * bm25_weight / (vector_weight + bm25_weight)⌋).toNat
  let nVec := (⌊(k1 : ℚ) * vector_weight / (vector_weight + bm25_weight)⌋).toNat
  let s1 := admitLoop [] [] (bm25_docs.take nLex)
  (admitLoop s1.1 s1.2 (vector_docs.take nVec)).2

/-- Spec-side single-pass first-occurrence deduplication by fingerprint,
used to state what the two admission loops of `hybrid_search` compute. -/
def dedupByFp (seen : List String) : List Doc → List Doc
  | [] => []
  | d :: ds =>
    if fingerprint d.page_content ∈ seen then dedupByFp seen ds
    else d :: dedupByFp (fingerprint d.page_content :: seen) ds

/-- An item handed to `Searching.get_context`: a LangChain-style object with a
`page_content` attribute, a dict (string keys/values), a bare string, or
anything else. -/
inductive Retrieved where
  | obj (page_content : String)
  | dict (entries : List (String × String))
  | str (s : String)
  | other
  deriving DecidableEq, Repr

/-- `Searching.get_context`: the `hasattr`/`isinstance` chain of the source,
one branch per shape, silently skipping anything else. -/
def get_context : List Retrieved → List String
  | [] => []
  | .obj s :: ds => s :: get_context ds
  | .dict es :: ds =>
    match es.lookup "text" with
    | some t => t :: get_context ds
    | none => get_context ds
  | .str s :: ds => s :: get_context ds
  | .other :: ds => get_context ds

/-- The text a single item contributes to `get_context`, if any. -/
def getContextItem : Retrieved → Option String
  | .obj s => some s
  | .dict es => es.lookup "text"
  | .str s => some s
  | .other => none

/-! ## Definitions: reranker (`reranker.py`, `Reranker.rerank`, BAAI backend)

The external cross-encoder is opaque; its normalized scores enter as the
`scores` list (`self.reranker.compute_score(...)`), zipped with `passages`
exactly as in the source. -/

/-- The ordering used by `sorted(filtered_pairs, key=lambda x: x[0],
reverse=True)`: `a` may come before `b` iff `b`'s score is `≤ a`'s. -/
def descR (a b : ℚ × String) : Prop := b.1 ≤ a.1

instance : DecidableRel descR := fun a b => inferInstanceAs (Decidable (b.1 ≤ a.1))

instance : IsTotal (ℚ × String) descR := ⟨fun a b => le_total b.1 a.1⟩

instance : IsTrans (ℚ × String) descR := ⟨fun _ _ _ h1 h2 => le_trans h2 h1⟩

/-- The `(score, passage)` pairs surviving `rerank`: zip, filter by
`score >= threshold`, stable descending sort, truncate to `top_n`.
`List.insertionSort` is a stable sort, hence produces the same list as
Python's stable `sorted(..., reverse=True)`. -/
def rerankPairs (scores : List ℚ) (passages : List String) (threshold : ℚ)
    (top_n : ℕ) : List (ℚ × String) :=
  (List.insertionSort descR
    ((scores.zip passages).filter (fun pr => decide (threshold ≤ pr.1)))).take top_n

/-- `Reranker.rerank` (BAAI backend): guard on empty passages, then the
filtered/sorted/truncated passages. -/
def rerank (scores : List ℚ) (passages : List String) (threshold : ℚ)
    (top_n : ℕ) : List String :=
  if passages = [] then []
  else (rerankPairs scores passages threshold top_n).map Prod.snd

/-! ## Definitions: merge pass of the Parent-Child Chunker
(`parent_child_chunker.py`, `OptimizedParentChildChunker._merge_small_children`)

`_extract_keywords` is passed in as `extractKw` (the merge pass is the only
caller here and, as proved below, its result never reaches the output). -/

/-- A child chunk with the fields `_merge_small_children` reads or writes. -/
structure ChildChunk where
  id : String
  text : String
  chunk_index : ℕ
  total_children : ℕ
  char_count : ℕ
  has_complete_sentences : Bool
  keywords : List String
  deriving DecidableEq, Repr

/-- The merged chunk the source builds inside the `if` branch:
texts joined by a space, `char_count` recomputed, keywords recomputed over the
merged text, completeness flag taken from the later sibling. -/
def mergeTwo (extractKw : String → List String) (cur next : ChildChunk) : ChildChunk :=
  let t := cur.text ++ " " ++ next.text
  { cur with
    text := t
    char_count := t.length
    keywords := extractKw t
    has_complete_sentences := next.has_complete_sentences }

/-- The `while` loop of `_merge_small_children`.  In the source, when
`current` is undersized and has a successor, the merged chunk is written into
`current` but **never appended to `merged`**, and `i` advances past both
chunks; so the branch simply discards the pair.  Otherwise `current` is
appended and `i` advances by one. -/
def mergeLoop (minSize : ℕ) (extractKw : String → List String) :
    List ChildChunk → List ChildChunk
  | [] => []
  | [c] => [c]
  | c :: d :: rest =>
    if c.char_count < minSize then
      mergeLoop minSize extractKw rest
    else c :: mergeLoop minSize extractKw (d :: rest)

/-- The re-index pass: `chunk_index := position`, `total_children := length`. -/
def reindexFrom (total : ℕ) : ℕ → List ChildChunk → List ChildChunk
  | _, [] => []
  | i, c :: rest =>
    { c with chunk_index := i, total_children := total } :: reindexFrom total (i + 1) rest

/-- `OptimizedParentChildChunker._merge_small_children`. -/
def mergeSmallChildren (minSize : ℕ) (extractKw : String → List String)
    (children : List ChildChunk) : List ChildChunk :=
  if children.length ≤ 1 then children
  else
    let merged := mergeLoop minSize extractKw children
    reindexFrom merged.length 0 merged

/-- The invariant claimed for merged children: every chunk except at most the
last one is at least `minSize` characters. -/
def AllButLastBig (minSize : ℕ) : List ChildChunk → Prop
  | [] => True
  | [_] => True
  | c :: d :: rest => minSize ≤ c.char_count ∧ AllButLastBig minSize (d :: rest)

/-! ## Definitions: header injection (`header_injection.py`, `HeaderInjector`) -/

/-- The two header-list shapes `_build_header_path` accepts: markdown-style
dicts (of which only the `"text"` values are read) or plain strings of the
form `"h1: Title"`. -/
inductive Headers where
  | dicts (texts : List String)
  | strs (raws : List String)
  deriving DecidableEq, Repr

/-- An input chunk as read by `inject_headers`: its `text` and its
`headers` (a missing key defaults to the empty list). -/
structure ChunkIn where
  text : String
  headers : Headers
  deriving DecidableEq, Repr

/-- An output chunk of `inject_headers`. -/
structure ChunkOut where
  text : String
  original_text : String
  headers : Headers
  header_path : String
  deriving DecidableEq, Repr

/-- `h.split(": ", 1)[-1]`: everything after the first `": "`, or the whole
string when it does not occur. -/
def stripTag (s : String) : String :=
  match s.splitOn ": " with
  | [] => s
  | [p] => p
  | _ :: rest => String.intercalate ": " rest

/-- `HeaderInjector._build_header_path`. -/
def buildHeaderPath (sep : String) : Headers → String
  | .dicts ts => if ts = [] then "" else String.intercalate sep ts
  | .strs rs => if rs = [] then "" else String.intercalate sep (rs.map stripTag)

/-- The per-chunk body of `HeaderInjector.inject_headers`. -/
def injectOne (sep : String) (c : ChunkIn) : ChunkOut :=
  let path := buildHeaderPath sep c.headers
  let t := if path ≠ "" then "[" ++ path ++ "] " ++ c.text else c.text
  { text := t, original_text := c.text, headers := c.headers, header_path := path }

/-- `HeaderInjector.inject_headers`. -/
def inject_headers (sep : String) (chunks : List ChunkIn) : List ChunkOut :=
  chunks.map (injectOne sep)

/-- Feeding an output chunk back into `inject_headers`: the second call reads
its `"text"` and `"headers"` keys. -/
def outToIn (o : ChunkOut) : ChunkIn := { text := o.text, headers := o.headers }

/-! ## Definitions: NDCG (`rag_evaluator.py`, `RAGEvaluator.calculate_ndcg_at_k`)

`np.log2` forces a real-valued model; `Real.logb 2` stands for it. -/

/-- Binary-relevance DCG of the top-`k` retrieved ids: rank `i` (0-based)
contributes `(1 if relevant else 0) / log2(i + 2)`. -/
noncomputable def dcgOf (relevant retrieved_k : List ℤ) : ℝ :=
  (retrieved_k.mapIdx
    (fun i doc => (if doc ∈ relevant then (1 : ℝ) else 0) / Real.logb 2 (i + 2))).sum

/-- The ideal ranking of `calculate_ndcg_at_k`:
`[1.0] * min(len(relevant), k) + [0.0] * max(0, k - len(relevant))`. -/
def idealRanking (relevant : List ℤ) (k : ℕ) : List ℝ :=
  List.replicate (min relevant.length k) (1 : ℝ) ++ List.replicate (k - relevant.length) 0

/-- Ideal DCG: the ideal ranking under the same discounts. -/
noncomputable def idcgOf (relevant : List ℤ) (k : ℕ) : ℝ :=
  ((idealRanking relevant k).mapIdx (fun i rel => rel / Real.logb 2 (i + 2))).sum

/-- NDCG of one query: `dcg / idcg if idcg > 0 else 0.0`. -/
noncomputable def ndcgQuery (retrieved relevant : List ℤ) (k : ℕ) : ℝ :=
  let dcg := dcgOf relevant (retrieved.take k)
  let idcg := idcgOf relevant k
  if 0 < idcg then dcg / idcg else 0

/-- `RAGEvaluator.calculate_ndcg_at_k`: the mean of the per-query NDCGs over
the zipped (results, relevant) pairs. -/
noncomputable def calculate_ndcg_at_k (results relevant_docs : List (List ℤ)) (k : ℕ) : ℝ :=
  let ndcgs := (results.zip relevant_docs).map (fun pr => ndcgQuery pr.1 pr.2 k)
  ndcgs.sum / ndcgs.length

/-! ## Definitions: boundary search (`parent_child_chunker.py`,
`OptimizedParentChildChunker._find_sentence_boundary`)

Text is a `List Char`; Python's `re.finditer` on the relevant patterns is a
left-to-right non-overlapping scan, embedded as accumulator scanners below. -/

/-- Python `\s` restricted to the ASCII whitespace characters. -/
def isWS (c : Char) : Bool :=
  c = ' ' || c = '\t' || c = '\n' || c = '\r' || c = '\x0b' || c = '\x0c'

/-- The regex class `[A-Z]` (the abbreviation lookbehind). -/
def isAsciiUpper (c : Char) : Bool := 'A' ≤ c && c ≤ 'Z'

/-- The accented uppercase letters of the source's Vietnamese capital class. -/
def vietCapExtra : List Char :=
  ['À', 'Á', 'Ạ', 'Ả', 'Ã', 'Ă', 'Ắ', 'Ằ', 'Ẳ', 'Ẵ', 'Ặ', 'Â', 'Ấ', 'Ầ', 'Ẩ',
   'Ẫ', 'Ậ', 'È', 'É', 'Ẹ', 'Ẻ', 'Ẽ', 'Ê', 'Ề', 'Ế', 'Ể', 'Ễ', 'Ệ', 'Ì', 'Í',
   'Ị', 'Ỉ', 'Ĩ', 'Ò', 'Ó', 'Ọ', 'Ỏ', 'Õ', 'Ô', 'Ố', 'Ồ', 'Ổ', 'Ỗ', 'Ộ', 'Ơ',
   'Ớ', 'Ờ', 'Ở', 'Ỡ', 'Ợ', 'Ù', 'Ú', 'Ụ', 'Ủ', 'Ũ', 'Ư', 'Ứ', 'Ừ', 'Ử', 'Ữ',
   'Ự', 'Ỳ', 'Ý', 'Ỵ', 'Ỷ', 'Ỹ', 'Đ']

/-- The source's `[A-ZÀÁ...Đ]` class. -/
def isVietCap (c : Char) : Bool := isAsciiUpper c || c ∈ vietCapExtra

/-- Non-overlapping left-to-right scan for a two-character pattern, returning
the end offset of the last match (as `finditer(...)[-1].end()` does). -/
def lastEnd2 (test : Char → Char → Bool) : List Char → ℕ → Option ℕ → Option ℕ
  | c1 :: c2 :: rest, i, acc =>
    if test c1 c2 then lastEnd2 test rest (i + 2) (some (i + 2))
    else lastEnd2 test (c2 :: rest) (i + 1) acc
  | _, _, acc => acc

/-- A hit of the pattern `(?<![A-Z])\. [A-ZÀÁ...Đ]` at a position whose
preceding character (if any) is `prev`. -/
def p1hit (prev : Option Char) (c1 c2 c3 : Char) : Bool :=
  c1 = '.' && c2 = ' ' && isVietCap c3 && !(prev.any isAsciiUpper)

/-- Non-overlapping scan for the three-character period-space-capital pattern,
tracking the previous character for the lookbehind; returns the end offset of
the last match. -/
def p1scan : Option Char → List Char → ℕ → Option ℕ → Option ℕ
  | prev, c1 :: c2 :: c3 :: rest, i, acc =>
    if p1hit prev c1 c2 c3 then p1scan (some c3) rest (i + 3) (some (i + 3))
    else p1scan (some c1) (c2 :: c3 :: rest) (i + 1) acc
  | _, _, _, acc => acc

/-- `str.rfind` as a scan: index of the last character satisfying `test`. -/
def lastIdx1 (test : Char → Bool) : List Char → ℕ → Option ℕ → Option ℕ
  | [], _, acc => acc
  | c :: rest, i, acc => lastIdx1 test rest (i + 1) (if test c then some i else acc)

/-- Shift a relative scan result by the base offset `i`, keeping the
accumulator when there is no match. -/
def shiftOr (i : ℕ) (acc : Option ℕ) : Option ℕ → Option ℕ
  | some e => some (i + e)
  | none => acc

/-- `"\n\n"` (paragraph break). -/
def paraTest (a b : Char) : Bool := a = '\n' && b = '\n'

/-- `"\.\n"` (period before a line break). -/
def dotNlTest (a b : Char) : Bool := a = '.' && b = '\n'

/-- `"[!?] "` (exclamation/question mark before a space). -/
def exclSpTest (a b : Char) : Bool := (a = '!' || a = '?') && b = ' '

/-- Priority 3 and the fallback of `_find_sentence_boundary`:
`text[:max_pos].rfind("\n")` (`-1` when absent, as in Python), accepted only
strictly beyond `max_pos - 100`, else a hard cut at `max_pos`. -/
def boundaryNewlinePhase (text : List Char) (maxPos : ℕ) : ℤ × Bool :=
  match lastIdx1 (fun c => c = '\n') (text.take maxPos) 0 none with
  | some p => if (maxPos : ℤ) - 100 < (p : ℤ) then ((p : ℤ), false) else ((maxPos : ℤ), false)
  | none =>
    if (maxPos : ℤ) - 100 < (-1 : ℤ) then ((-1 : ℤ), false) else ((maxPos : ℤ), false)

/-- Priority 2 of `_find_sentence_boundary`: the three sentence patterns tried
in order on `text[search_start:max_pos]` where
`search_start = max(min_acceptable, max_pos - 300)`. -/
def boundarySentencePhase (text : List Char) (maxPos minAcc : ℕ) : ℤ × Bool :=
  let s0 := max minAcc (maxPos - 300)
  let sub := (text.take maxPos).drop s0
  match p1scan none sub 0 none with
  | some e => (((s0 + e : ℕ) : ℤ), true)
  | none =>
    match lastEnd2 dotNlTest sub 0 none with
    | some e => (((s0 + e : ℕ) : ℤ), true)
    | none =>
      match lastEnd2 exclSpTest sub 0 none with
      | some e => (((s0 + e : ℕ) : ℤ), true)
      | none => boundaryNewlinePhase text maxPos

/-- `OptimizedParentChildChunker._find_sentence_boundary`.
`min_acceptable = int(max_pos * 0.6)` is `6 * maxPos / 10` in exact
arithmetic.  Priority 1 accepts the end of the last `"\n\n"` in
`text[:max_pos]` when it reaches `min_acceptable`. -/
def findSentenceBoundary (text : List Char) (maxPos : ℕ) : ℤ × Bool :=
  let minAcc : ℕ := 6 * maxPos / 10
  match lastEnd2 paraTest (text.take maxPos) 0 none with
  | some e =>
    if minAcc ≤ e then ((e : ℤ), true) else boundarySentencePhase text maxPos minAcc
  | none => boundarySentencePhase text maxPos minAcc

/-- Declarative last-match position: the greatest index whose character
satisfies `test`. -/
def declLastIdx (test : Char → Bool) : List Char → Option ℕ
  | [] => none
  | c :: rest =>
    match declLastIdx test rest with
    | some j => some (j + 1)
    | none => if test c then some 0 else none

/-- One step of the declarative last-match-end recursion for a two-character
pattern: shift a later match by one, else test a match at the head. -/
def upd2 (test : Char → Char → Bool) (c1 : Char) (rest : List Char) :
    Option ℕ → Option ℕ
  | some e => some (e + 1)
  | none =>
    match rest with
    | c2 :: _ => if test c1 c2 then some 2 else none
    | [] => none

/-- Declarative last-match end for a two-character pattern: `j + 2` for the
greatest `j` with `test s[j] s[j+1]`. -/
def declLast2 (test : Char → Char → Bool) : List Char → Option ℕ
  | [] => none
  | c1 :: rest => upd2 test c1 rest (declLast2 test rest)

/-- One step of the declarative last-match-end recursion for the
period-space-capital pattern. -/
def upd3 (prev : Option Char) (c1 : Char) (rest : List Char) :
    Option ℕ → Option ℕ
  | some e => some (e + 1)
  | none =>
    match rest with
    | c2 :: c3 :: _ => if p1hit prev c1 c2 c3 then some 3 else none
    | _ => none

/-- Declarative last-match end for the period-space-capital pattern (with its
lookbehind): `j + 3` for the greatest matching `j`. -/
def declP1 : Option Char → List Char → Option ℕ
  | _, [] => none
  | prev, c1 :: rest => upd3 prev c1 rest (declP1 (some c1) rest)

/-- A hit of the claim's reading of rule (b): sentence-final punctuation
followed by (any) whitespace, not preceded by a single capital letter. -/
def claimPunctHit (prev : Option Char) (c1 c2 : Char) : Bool :=
  (c1 = '.' || c1 = '!' || c1 = '?') && isWS c2 && !(prev.any isAsciiUpper)

/-- Declarative last-match end for the claim's rule (b). -/
def declClaimPunct : Option Char → List Char → Option ℕ
  | _, [] => none
  | prev, c1 :: rest =>
    match declClaimPunct (some c1) rest with
    | some e => some (e + 1)
    | none =>
      match rest with
      | c2 :: _ => if claimPunctHit prev c1 c2 then some 2 else none
      | [] => none

/-- The boundary search as the claim describes it, rules (b) and (c) both
scanning down to the single floor `0.6 × max_pos`: (a) last blank-line break
at or beyond the floor, else (b) last sentence-final punctuation followed by
whitespace (with the abbreviation lookbehind) in `[floor, max_pos)`, else (c)
last bare line break at or beyond the floor, else (d) hard cut; (a)/(b)
complete, (c)/(d) incomplete. -/
def findBoundaryClaim (text : List Char) (maxPos : ℕ) : ℕ × Bool :=
  let minAcc : ℕ := 6 * maxPos / 10
  let win := text.take maxPos
  let fromPara :=
    match lastEnd2 paraTest win 0 none with
    | some e => if minAcc ≤ e then some e else none
    | none => none
  match fromPara with
  | some e => (e, true)
  | none =>
    match declClaimPunct none (win.drop minAcc) with
    | some e => (minAcc + e, true)
    | none =>
      match declLastIdx (fun c => c = '\n') win with
      | some p => if minAcc ≤ p then (p, false) else (maxPos, false)
      | none => (maxPos, false)

/-- The boundary search as amended to the code's actual windows and patterns:
(a) as claimed; (b) restricted to the code's three patterns
(period-space-capital with lookbehind, period-newline, bang/question-space)
searched in `[max(0.6·max_pos, max_pos−300), max_pos)`; (c) the last bare
line break accepted only strictly beyond `max_pos − 100`; (d) hard cut. -/
def findBoundaryAmended (text : List Char) (maxPos : ℕ) : ℕ × Bool :=
  let minAcc : ℕ := 6 * maxPos / 10
  let win := text.take maxPos
  let s0 := max minAcc (maxPos - 300)
  let sub := win.drop s0
  let fromPara :=
    match lastEnd2 paraTest win 0 none with
    | some e => if minAcc ≤ e then some e else none
    | none => none
  match fromPara with
  | some e => (e, true)
  | none =>
    match declP1 none sub with
    | some e => (s0 + e, true)
    | none =>
      match declLast2 dotNlTest sub with
      | some e => (s0 + e, true)
      | none =>
        match declLast2 exclSpTest sub with
        | some e => (s0 + e, true)
        | none =>
          match declLastIdx (fun c => c = '\n') win with
          | some p => if maxPos - 100 < p then (p, false) else (maxPos, false)
          | none => (maxPos, false)

/-- Concrete window exhibiting the divergence between the claim's reading and
the code: 150 filler chars, then `". a"` (period + space + lowercase), then
filler, a line break at offset 159, more filler; `maxPos = 250`. -/
def boundaryCex : List Char :=
  List.replicate 150 'a' ++ '.' :: ' ' :: (List.replicate 7 'a' ++ '\n' :: List.replicate 91 'a')

/-- Concrete undersized chunk used to exhibit the merge-pass defect. -/
def tinyChunk : ChildChunk :=
  { id := "doc_parent_0_child_0", text := "aaaa", chunk_index := 0,
    total_children := 2, char_count := 4, has_complete_sentences := false,
    keywords := [] }

/-- Concrete well-sized successor chunk. -/
def bigChunk : ChildChunk :=
  { id := "doc_parent_0_child_1", text := String.mk (List.replicate 300 'b'),
    chunk_index := 1, total_children := 2, char_count := 300,
    has_complete_sentences := true, keywords := [] }

/-! ## Definitions: Vietnamese segmenter fallback
(`vietnamese_segmenter.py`, `VietnameseSegmenter._segment_fallback`)

The fallback lowercases the text, then for each compound of the medical
dictionary applies `re.sub` with the pattern `compound.replace("_", r"\s+")`
(the syllables separated by nonempty whitespace runs) and the compound itself
as replacement.  Modelling notes: characters are code points; `str.lower()`
is modelled on the ASCII and Vietnamese alphabets (identity elsewhere); `\s`
as the ASCII whitespace class. -/

/-- Lowercase mapping (`str.lower()`) for ASCII and the Vietnamese
alphabet. -/
def lowerTable : List (Char × Char) :=
  [('A', 'a'), ('B', 'b'), ('C', 'c'), ('D', 'd'), ('E', 'e'), ('F', 'f'),
   ('G', 'g'), ('H', 'h'), ('I', 'i'), ('J', 'j'), ('K', 'k'), ('L', 'l'),
   ('M', 'm'), ('N', 'n'), ('O', 'o'), ('P', 'p'), ('Q', 'q'), ('R', 'r'),
   ('S', 's'), ('T', 't'), ('U', 'u'), ('V', 'v'), ('W', 'w'), ('X', 'x'),
   ('Y', 'y'), ('Z', 'z'),
   ('À', 'à'), ('Á', 'á'), ('Ạ', 'ạ'), ('Ả', 'ả'), ('Ã', 'ã'), ('Ă', 'ă'),
   ('Ắ', 'ắ'), ('Ằ', 'ằ'), ('Ẳ', 'ẳ'), ('Ẵ', 'ẵ'), ('Ặ', 'ặ'), ('Â', 'â'),
   ('Ấ', 'ấ'), ('Ầ', 'ầ'), ('Ẩ', 'ẩ'), ('Ẫ', 'ẫ'), ('Ậ', 'ậ'), ('È', 'è'),
   ('É', 'é'), ('Ẹ', 'ẹ'), ('Ẻ', 'ẻ'), ('Ẽ', 'ẽ'), ('Ê', 'ê'), ('Ề', 'ề'),
   ('Ế', 'ế'), ('Ể', 'ể'), ('Ễ', 'ễ'), ('Ệ', 'ệ'), ('Ì', 'ì'), ('Í', 'í'),
   ('Ị', 'ị'), ('Ỉ', 'ỉ'), ('Ĩ', 'ĩ'), ('Ò', 'ò'), ('Ó', 'ó'), ('Ọ', 'ọ'),
   ('Ỏ', 'ỏ'), ('Õ', 'õ'), ('Ô', 'ô'), ('Ố', 'ố'), ('Ồ', 'ồ'), ('Ổ', 'ổ'),
   ('Ỗ', 'ỗ'), ('Ộ', 'ộ'), ('Ơ', 'ơ'), ('Ớ', 'ớ'), ('Ờ', 'ờ'), ('Ở', 'ở'),
   ('Ỡ', 'ỡ'), ('Ợ', 'ợ'), ('Ù', 'ù'), ('Ú', 'ú'), ('Ụ', 'ụ'), ('Ủ', 'ủ'),
   ('Ũ', 'ũ'), ('Ư', 'ư'), ('Ứ', 'ứ'), ('Ừ', 'ừ'), ('Ử', 'ử'), ('Ữ', 'ữ'),
   ('Ự', 'ự'), ('Ỳ', 'ỳ'), ('Ý', 'ý'), ('Ỵ', 'ỵ'), ('Ỷ', 'ỷ'), ('Ỹ', 'ỹ'),
   ('Đ', 'đ')]

/-- `str.lower()` on one character. -/
def viLower (c : Char) : Char := (lowerTable.lookup c).getD c

/-- A nonempty syllable of a compound. -/
structure Syl where
  hd : Char
  tl : List Char
  deriving DecidableEq, Repr

/-- The characters of a syllable. -/
def Syl.chars (s : Syl) : List Char := s.hd :: s.tl

/-- A compound pattern `syl1(\s+syl)*` as produced by
`compound.replace("_", r"\s+")`. -/
structure Pat where
  first : Syl
  rest : List Syl
  deriving DecidableEq, Repr

/-- Split a string into a syllable (dummy for the impossible empty case). -/
def mkSyl (s : String) : Syl :=
  match s.toList with
  | c :: cs => ⟨c, cs⟩
  | [] => ⟨'_', []⟩

/-- The pattern of an underscore-joined compound, written as its syllable
list (the result of splitting the compound at `_`). -/
def patOfSyllables (ss : List String) : Pat :=
  match ss.map mkSyl with
  | f :: rs => ⟨f, rs⟩
  | [] => ⟨⟨'_', []⟩, []⟩

/-- `VietnameseSegmenter.medical_compounds` (a Python `set`; one iteration
order is fixed — the results proved below hold for any order).  Each entry is
the compound split at `_`: `"đau_đầu"`, `"cao_huyết_áp"`, `"tiểu_đường"`,
`"tai_biến"`, `"nhồi_máu"`, `"ung_thư"`, `"viêm_gan"`, `"viêm_phổi"`,
`"sốt_xuất_huyết"`, `"suy_thận"`, `"đột_quỵ"`, `"rối_loạn_lo_âu"`,
`"trầm_cảm"`. -/
def medicalCompounds : List Pat :=
  [patOfSyllables ["đau", "đầu"],
   patOfSyllables ["cao", "huyết", "áp"],
   patOfSyllables ["tiểu", "đường"],
   patOfSyllables ["tai", "biến"],
   patOfSyllables ["nhồi", "máu"],
   patOfSyllables ["ung", "thư"],
   patOfSyllables ["viêm", "gan"],
   patOfSyllables ["viêm", "phổi"],
   patOfSyllables ["sốt", "xuất", "huyết"],
   patOfSyllables ["suy", "thận"],
   patOfSyllables ["đột", "quỵ"],
   patOfSyllables ["rối", "loạn", "lo", "âu"],
   patOfSyllables ["trầm", "cảm"]]

/-- Replacement text of the trailing syllables: `('_' ++ syl)*`. -/
def underTail (syls : List Syl) : List Char :=
  syls.foldr (fun syl acc => '_' :: (syl.chars ++ acc)) []

/-- The replacement text of a compound: its syllables joined by `_`. -/
def joined (p : Pat) : List Char := p.first.chars ++ underTail p.rest

/-- Consume an exact literal. -/
def dropLit : List Char → List Char → Option (List Char)
  | [], s => some s
  | _ :: _, [] => none
  | c :: cs, d :: ds => if c = d then dropLit cs ds else none

/-- Drop a maximal (possibly empty) whitespace run. -/
def dropWSall : List Char → List Char
  | [] => []
  | c :: rest => if isWS c then dropWSall rest else c :: rest

/-- `\s+`: consume a nonempty maximal whitespace run.  Greedy consumption is
exact here: every syllable starts with a non-whitespace character, so regex
backtracking into the run can never produce a match this misses. -/
def dropWS1 : List Char → Option (List Char)
  | [] => none
  | c :: rest => if isWS c then some (dropWSall rest) else none

/-- Match `(\s+ syl)*` and return the remainder. -/
def dropTail : List Syl → List Char → Option (List Char)
  | [], s => some s
  | l :: ls, s =>
    match dropWS1 s with
    | none => none
    | some s1 =>
      match dropLit l.chars s1 with
      | none => none
      | some s2 => dropTail ls s2

/-- Try the whole compound pattern at the head of `s`; on success return the
unconsumed remainder. -/
def tryHit (p : Pat) (s : List Char) : Option (List Char) :=
  match dropLit p.first.chars s with
  | none => none
  | some s1 => dropTail p.rest s1

/-! Support lemmas needed by the well-founded recursion of `reSub`. -/

theorem dropLit_length : ∀ (u s r : List Char), dropLit u s = some r →
    u.length + r.length = s.length
  | [], s, r => by
    intro h
    simp only [dropLit, Option.some.injEq] at h
    subst h
    simp
  | _ :: _, [], _ => by intro h; simp [dropLit] at h
  | c :: cs, d :: ds, r => by
    intro h
    by_cases hc : c = d
    · rw [dropLit, if_pos hc] at h
      have := dropLit_length cs ds r h
      simp only [List.length_cons]
      omega
    · rw [dropLit, if_neg hc] at h
      cases h

theorem dropWSall_length : ∀ s : List Char, (dropWSall s).length ≤ s.length
  | [] => le_refl _
  | c :: rest => by
    rw [dropWSall]
    split
    · exact le_trans (dropWSall_length rest) (Nat.le_succ _)
    · exact le_refl _

theorem dropWS1_length : ∀ (s r : List Char), dropWS1 s = some r → r.length < s.length
  | [], _ => by intro h; cases h
  | c :: rest, r => by
    intro h
    rw [dropWS1] at h
    split at h
    · cases h
      exact Nat.lt_succ_of_le (dropWSall_length rest)
    · cases h

theorem dropTail_length : ∀ (ls : List Syl) (s r : List Char),
    dropTail ls s = some r → r.length ≤ s.length
  | [], s, r => by
    intro h
    simp only [dropTail, Option.some.injEq] at h
    subst h
    exact le_refl _
  | l :: ls, s, r => by
    intro h
    rw [dropTail] at h
    cases h1 : dropWS1 s with
    | none => rw [h1] at h; cases h
    | some s1 =>
      rw [h1] at h
      dsimp only at h
      cases h2 : dropLit l.chars s1 with
      | none => rw [h2] at h; cases h
      | some s2 =>
        rw [h2] at h
        have hl1 := dropWS1_length s s1 h1
        have hl2 := dropLit_length l.chars s1 s2 h2
        have hl3 := dropTail_length ls s2 r h
        omega

theorem tryHit_shrink (p : Pat) : ∀ (s r : List Char),
    tryHit p s = some r → r.length < s.length := by
  intro s r h
  rw [tryHit] at h
  cases h1 : dropLit p.first.chars s with
  | none => rw [h1] at h; cases h
  | some s1 =>
    rw [h1] at h
    have hl1 := dropLit_length p.first.chars s s1 h1
    have hl2 := dropTail_length p.rest s1 r h
    simp only [Syl.chars, List.length_cons] at hl1
    omega

set_option linter.unusedVariables false in
/-- `re.sub` for one compound pattern: scan left to right; on a match, emit
the joined compound and continue after the consumed text, otherwise keep the
character and move on. -/
def reSub (p : Pat) : List Char → List Char
  | [] => []
  | c :: rest =>
    match h : tryHit p (c :: rest) with
    | some r => joined p ++ reSub p r
    | none => c :: reSub p rest
termination_by s => s.length
decreasing_by
  · exact tryHit_shrink p (c :: rest) r h
  · simp

/-- `_segment_fallback`'s substitution loop over the dictionary. -/
def reSubAll (ps : List Pat) (s : List Char) : List Char :=
  ps.foldl (fun acc p => reSub p acc) s

/-- `VietnameseSegmenter._segment_fallback`: lowercase, then substitute every
dictionary compound. -/
def segment_fallback (text : List Char) : List Char :=
  reSubAll medicalCompounds (text.map viLower)

/-- The text consumed by `(\s+ syl)*`: alternating nonempty whitespace runs
and syllable literals. -/
def ConsTail : List Syl → List Char → Prop
  | [], x => x = []
  | l :: ls, x => ∃ w x', x = w ++ (l.chars ++ x') ∧ w ≠ [] ∧
      (∀ ch ∈ w, isWS ch = true) ∧ ConsTail ls x'

/-- How an output of `reSub q` relates to its input: kept characters and
replaced blocks. -/
inductive SegView (q : Pat) : List Char → List Char → Prop
  | nil : SegView q [] []
  | keep (c : Char) {t o : List Char} : SegView q t o → SegView q (c :: t) (c :: o)
  | block {x t o : List Char} : ConsTail q.rest x → SegView q t o →
      SegView q (q.first.chars ++ (x ++ t)) (q.first.chars ++ (underTail q.rest ++ o))

/-- A mid-block suffix state of a `SegView`: either a whole view, or the view
preceded by a residue `rem` of syllable characters followed (on the output
side) by the rest of a replaced block. -/
inductive SufRel (q : Pat) : List Char → List Char → Prop
  | seg {t o : List Char} : SegView q t o → SufRel q t o
  | mid (rem : List Char) (syls : List Syl) {x t o : List Char} :
      (∀ ch ∈ rem, isWS ch = false) → '_' ∉ rem →
      ConsTail syls x → SegView q t o →
      SufRel q (rem ++ (x ++ t)) (rem ++ (underTail syls ++ o))

/-- No suffix of `s` starts a match of `p`. -/
def NoHit (p : Pat) (s : List Char) : Prop :=
  ∀ s', s' <:+ s → tryHit p s' = none

/-- The final syllable of a pattern. -/
def lastSyl (p : Pat) : Syl := p.rest.getLastD p.first

/-- Executable "is a list prefix" test. -/
def isPre : List Char → List Char → Bool
  | [], _ => true
  | _ :: _, [] => false
  | a :: as, b :: bs => a = b && isPre as bs

/-- The side conditions the idempotence argument needs, all satisfied by the
medical dictionary: syllable characters are neither whitespace nor `_`, every
pattern has at least two syllables, and no nonempty suffix of the final
syllable is a prefix of the first syllable. -/
def GoodPat (p : Pat) : Prop :=
  (∀ syl ∈ p.first :: p.rest, ∀ ch ∈ Syl.chars syl, isWS ch = false ∧ ch ≠ '_') ∧
  p.rest ≠ [] ∧
  (∀ v ∈ (Syl.chars (lastSyl p)).tails, v ≠ [] → isPre v (Syl.chars p.first) = false)

instance (p : Pat) : Decidable (GoodPat p) := by
  unfold GoodPat
  exact inferInstance

/-! ## Theorems -/

theorem allButLastBig_cons (minSize : ℕ) (c : ChildChunk) (l : List ChildChunk)
    (hc : minSize ≤ c.char_count) (hl : AllButLastBig minSize l) :
    AllButLastBig minSize (c :: l) := by
  cases l with
  | nil => trivial
  | cons d rest => exact ⟨hc, hl⟩

theorem allButLastBig_mergeLoop (minSize : ℕ) (extractKw : String → List String) :
    ∀ l, AllButLastBig minSize (mergeLoop minSize extractKw l)
  | [] => trivial
  | [_] => trivial
  | c :: d :: rest => by
    unfold mergeLoop
    split
    · exact allButLastBig_mergeLoop minSize extractKw rest
    · exact allButLastBig_cons minSize c _ (Nat.le_of_not_lt (by assumption))
        (allButLastBig_mergeLoop minSize extractKw (d :: rest))

theorem allButLastBig_reindexFrom (minSize total : ℕ) :
    ∀ (i : ℕ) (l : List ChildChunk), AllButLastBig minSize l →
      AllButLastBig minSize (reindexFrom total i l)
  | _, [], _ => trivial
  | _, [_], _ => trivial
  | i, _c :: d :: rest, h =>
    ⟨h.1, allButLastBig_reindexFrom minSize total (i + 1) (d :: rest) h.2⟩

/-- C4: after `_merge_small_children`, every child chunk except at most the
last one has `char_count ≥ child_min_size` — for every input list: an
undersized chunk with a successor never reaches the output, and a chunk is
otherwise only kept when it meets the minimum or is the final one. -/
theorem merge_allButLastBig (minSize : ℕ) (extractKw : String → List String)
    (children : List ChildChunk) :
    AllButLastBig minSize (mergeSmallChildren minSize extractKw children) := by
  unfold mergeSmallChildren
  split
  · match children with
    | [] => trivial
    | [_] => trivial
    | c :: d :: rest => simp at *
  · exact allButLastBig_reindexFrom minSize _ 0 _
      (allButLastBig_mergeLoop minSize extractKw children)

/-- C1: evidence of the merge-pass defect.  On an undersized first child with
a well-sized successor, `_merge_small_children` returns the **empty** list:
the merged chunk the spec describes (texts concatenated, flag from the later
sibling, keywords recomputed) is built by the source into `current` but never
appended to `merged`, so the pair is silently dropped. -/
theorem mergeSmallChildren_drops_merged_pair :
    mergeSmallChildren 200 (fun _ => []) [tinyChunk, bigChunk] = [] ∧
      (mergeTwo (fun _ => []) tinyChunk bigChunk).text =
        tinyChunk.text ++ " " ++ bigChunk.text := by
  constructor
  · rfl
  · rfl

theorem admitLoop_append (l2 : List Doc) :
    ∀ (l1 : List Doc) (seen : List String) (acc : List Doc),
      admitLoop seen acc (l1 ++ l2) =
        admitLoop (admitLoop seen acc l1).1 (admitLoop seen acc l1).2 l2
  | [], _, _ => rfl
  | d :: ds, seen, acc => by
    by_cases h : fingerprint d.page_content ∈ seen
    · simp only [List.cons_append, admitLoop, if_pos h]
      exact admitLoop_append l2 ds seen acc
    · simp only [List.cons_append, admitLoop, if_neg h]
      exact admitLoop_append l2 ds _ _

theorem admitLoop_snd :
    ∀ (l : List Doc) (seen : List String) (acc : List Doc),
      (admitLoop seen acc l).2 = acc ++ dedupByFp seen l
  | [], _, _ => by simp [admitLoop, dedupByFp]
  | d :: ds, seen, acc => by
    by_cases h : fingerprint d.page_content ∈ seen
    · simp only [admitLoop, dedupByFp, if_pos h]
      exact admitLoop_snd ds seen acc
    · simp only [admitLoop, dedupByFp, if_neg h]
      rw [admitLoop_snd ds _ _, List.append_assoc, List.singleton_append]

/-- What the two admission loops of `hybrid_search` compute: a single
first-occurrence dedup pass over lexical-then-vector candidates. -/
theorem hybrid_search_eq_dedup (k1 k2 : ℕ) (vw bw : ℚ)
    (vecs bms : List Doc) :
    hybrid_search k1 k2 vw bw vecs bms =
      dedupByFp []
        (bms.take ((⌊(k2 : ℚ) * bw / (vw + bw)⌋).toNat) ++
          vecs.take ((⌊(k1 : ℚ) * vw / (vw + bw)⌋).toNat)) := by
  have hdef : hybrid_search k1 k2 vw bw vecs bms =
      (admitLoop
        (admitLoop [] [] (bms.take ((⌊(k2 : ℚ) * bw / (vw + bw)⌋).toNat))).1
        (admitLoop [] [] (bms.take ((⌊(k2 : ℚ) * bw / (vw + bw)⌋).toNat))).2
        (vecs.take ((⌊(k1 : ℚ) * vw / (vw + bw)⌋).toNat))).2 := rfl
  rw [hdef, ← admitLoop_append, admitLoop_snd]
  simp

theorem dedupByFp_sublist : ∀ (l : List Doc) (seen : List String),
    (dedupByFp seen l).Sublist l
  | [], _ => List.Sublist.refl []
  | d :: ds, seen => by
    unfold dedupByFp
    split
    · exact (dedupByFp_sublist ds seen).cons d
    · exact (dedupByFp_sublist ds _).cons₂ d

/-- C2: `hybrid_search` admits the top
`⌊k2·bm25_weight/(vector_weight+bm25_weight)⌋` lexical hits first, then the
top `⌊k1·vector_weight/(vector_weight+bm25_weight)⌋` vector hits, skipping
candidates whose first-100-character fingerprint was already admitted, and
returns them in admission order (a sublist of the lexical block followed by
the vector block, not a score-sorted merge). -/
theorem hybrid_search_spec (k1 k2 : ℕ) (vw bw : ℚ) (vecs bms : List Doc) :
    hybrid_search k1 k2 vw bw vecs bms =
      dedupByFp []
        (bms.take ((⌊(k2 : ℚ) * bw / (vw + bw)⌋).toNat) ++
          vecs.take ((⌊(k1 : ℚ) * vw / (vw + bw)⌋).toNat)) ∧
    (hybrid_search k1 k2 vw bw vecs bms).Sublist
        (bms.take ((⌊(k2 : ℚ) * bw / (vw + bw)⌋).toNat) ++
          vecs.take ((⌊(k1 : ℚ) * vw / (vw + bw)⌋).toNat)) := by
  refine ⟨hybrid_search_eq_dedup k1 k2 vw bw vecs bms, ?_⟩
  rw [hybrid_search_eq_dedup]
  exact dedupByFp_sublist _ _

theorem mem_dedupByFp_not_seen :
    ∀ (l : List Doc) (seen : List String) (d : Doc),
      d ∈ dedupByFp seen l → fingerprint d.page_content ∉ seen
  | [], _, _, h => by simp [dedupByFp] at h
  | e :: es, seen, d, h => by
    unfold dedupByFp at h
    split at h
    · exact mem_dedupByFp_not_seen es seen d h
    · rcases List.mem_cons.mp h with rfl | h'
      · assumption
      · have := mem_dedupByFp_not_seen es _ d h'
        exact fun hc => this (List.mem_cons_of_mem _ hc)

theorem pairwise_dedupByFp :
    ∀ (l : List Doc) (seen : List String),
      (dedupByFp seen l).Pairwise
        (fun a b => fingerprint a.page_content ≠ fingerprint b.page_content)
  | [], _ => List.Pairwise.nil
  | d :: ds, seen => by
    unfold dedupByFp
    split
    · exact pairwise_dedupByFp ds seen
    · refine List.Pairwise.cons ?_ (pairwise_dedupByFp ds _)
      intro b hb heq
      have hmem := mem_dedupByFp_not_seen ds _ b hb
      refine hmem ?_
      rw [← heq]
      exact List.mem_cons_self _ _

/-- C8: no two entries of a `hybrid_search` result share a
first-100-character fingerprint. -/
theorem hybrid_search_fingerprints_distinct (k1 k2 : ℕ) (vw bw : ℚ)
    (vecs bms : List Doc) :
    (hybrid_search k1 k2 vw bw vecs bms).Pairwise
      (fun a b => fingerprint a.page_content ≠ fingerprint b.page_content) := by
  rw [hybrid_search_eq_dedup]
  exact pairwise_dedupByFp _ _

/-- C10: `get_context` is a total filter-map — items carrying text as a
`page_content` field, a `"text"` dict key, or a bare string contribute their
text in input order; any other shape is silently omitted — so the output is
never longer than the input. -/
theorem get_context_spec (docs : List Retrieved) :
    get_context docs = docs.filterMap getContextItem ∧
      (get_context docs).length ≤ docs.length := by
  have h : ∀ ds : List Retrieved, get_context ds = ds.filterMap getContextItem := by
    intro ds
    induction ds with
    | nil => rfl
    | cons d rest ih =>
      cases d with
      | obj s => simp [get_context, getContextItem, List.filterMap_cons, ih]
      | dict es =>
        cases h : es.lookup "text" with
        | none => simp [get_context, getContextItem, List.filterMap_cons, h, ih]
        | some t => simp [get_context, getContextItem, List.filterMap_cons, h, ih]
      | str s => simp [get_context, getContextItem, List.filterMap_cons, ih]
      | other => simp [get_context, getContextItem, List.filterMap_cons, ih]
  refine ⟨h docs, ?_⟩
  rw [h docs]
  exact List.length_filterMap_le getContextItem docs

/-- C3: `rerank` keeps exactly the pairs scoring at least the threshold,
sorted in non-increasing score order and truncated to `top_n`; on empty
passages it returns `[]` (the scorer is never consulted: the guard fires
before the score list is read). -/
theorem rerank_spec (scores : List ℚ) (passages : List String) (threshold : ℚ)
    (top_n : ℕ) :
    rerank scores [] threshold top_n = [] ∧
    List.Sorted descR (rerankPairs scores passages threshold top_n) ∧
    (∀ pr ∈ rerankPairs scores passages threshold top_n, threshold ≤ pr.1) ∧
    (rerank scores passages threshold top_n).length ≤ top_n := by
  refine ⟨rfl, ?_, ?_, ?_⟩
  · exact List.Pairwise.sublist (List.take_sublist _ _)
      (List.sorted_insertionSort descR _)
  · intro pr hpr
    have h1 : pr ∈ List.insertionSort descR
        ((scores.zip passages).filter (fun pr => decide (threshold ≤ pr.1))) :=
      List.mem_of_mem_take hpr
    have h2 := (List.mem_insertionSort descR).mp h1
    have h3 := List.of_mem_filter h2
    exact of_decide_eq_true h3
  · unfold rerank
    split
    · simp
    · rw [List.length_map]
      unfold rerankPairs
      exact (List.length_take_le _ _)

set_option maxRecDepth 4000 in
/-- C3 witness: the threshold bound extracted from `rerank_spec` at a
concrete input. -/
theorem rerank_spec_witness : (1 : ℚ) ≤ 3 :=
  (rerank_spec [3] ["a"] 1 5).2.2.1 (3, "a") (by decide)

/-- C7 counterexample: `inject_headers` is **not** idempotent — re-applying
it to its own output (texts and headers fed back in) prepends the header path
a second time, changing the visible texts. -/
theorem inject_headers_not_idempotent :
    (inject_headers " | "
        ((inject_headers " | " [⟨"x", .dicts ["H"]⟩]).map outToIn)).map ChunkOut.text ≠
      (inject_headers " | " [⟨"x", .dicts ["H"]⟩]).map ChunkOut.text := by
  decide

/-- C7 (amended): `inject_headers` is a pure per-chunk transform that
preserves the unmodified text in `original_text` and prepends
`"[joined_path] "` to the visible text (when the path is nonempty);
re-application prepends the path a second time, so the transform is
idempotent precisely on chunks whose header path is empty. -/
theorem inject_headers_composition (sep : String) (chunks : List ChunkIn) :
    (inject_headers sep chunks).map ChunkOut.original_text = chunks.map ChunkIn.text ∧
    (inject_headers sep ((inject_headers sep chunks).map outToIn)).map ChunkOut.text =
      chunks.map (fun c =>
        if buildHeaderPath sep c.headers ≠ "" then
          "[" ++ buildHeaderPath sep c.headers ++ "] " ++
            ("[" ++ buildHeaderPath sep c.headers ++ "] " ++ c.text)
        else c.text) ∧
    (∀ c ∈ chunks, buildHeaderPath sep c.headers = "" →
      (injectOne sep c).text = c.text) := by
  refine ⟨?_, ?_, ?_⟩
  · simp [inject_headers, injectOne]
  · simp only [inject_headers, List.map_map]
    congr 1
    funext c
    simp only [Function.comp, injectOne, outToIn]
    by_cases h : buildHeaderPath sep c.headers = ""
    · simp [h]
    · simp [h, String.append_assoc]
  · intro c _ h
    simp [injectOne, h]

/-- C7 witness: a chunk with an empty header path is returned with its text
unchanged, extracted from `inject_headers_composition` at a concrete input. -/
theorem inject_headers_composition_witness :
    (injectOne " | " ⟨"x", .dicts []⟩).text = "x" :=
  (inject_headers_composition " | " [⟨"x", .dicts []⟩]).2.2 ⟨"x", .dicts []⟩
    (List.mem_singleton.mpr rfl) rfl

/-- C6: on `relevant = {1}`, `retrieved = [9, 1, 8]`, `k = 3`, the evaluator
returns binary DCG `1/log2 3` normalized by the ideal DCG `1/log2 2`, i.e.
`(1/log2 3) / (1/log2 2)` (≈ 0.631). -/
theorem ndcg_binary_example :
    calculate_ndcg_at_k [[9, 1, 8]] [[1]] 3 =
      (1 / Real.logb 2 3) / (1 / Real.logb 2 2) := by
  have hlog : Real.logb 2 2 = 1 := Real.logb_self_eq_one (by norm_num)
  unfold calculate_ndcg_at_k ndcgQuery dcgOf idcgOf idealRanking
  norm_num [List.mapIdx_cons, List.replicate_succ, hlog, zero_div]

theorem shiftOr_zero_none (x : Option ℕ) : shiftOr 0 none x = x := by
  cases x <;> simp [shiftOr]

theorem lastIdx1_decl (test : Char → Bool) :
    ∀ (s : List Char) (i : ℕ) (acc : Option ℕ),
      lastIdx1 test s i acc = shiftOr i acc (declLastIdx test s)
  | [], _, _ => rfl
  | c :: rest, i, acc => by
    rw [lastIdx1, lastIdx1_decl test rest (i + 1) _]
    cases h : declLastIdx test rest with
    | some j =>
      simp only [declLastIdx, h, shiftOr]
      congr 1
      omega
    | none =>
      simp only [declLastIdx, h, shiftOr]
      cases hc : test c <;> simp [shiftOr]

theorem lastEnd2_decl (test : Char → Char → Bool)
    (hno : ∀ a b c, test a b = true → test b c = false) :
    ∀ (s : List Char) (i : ℕ) (acc : Option ℕ),
      lastEnd2 test s i acc = shiftOr i acc (declLast2 test s)
  | [], _, _ => rfl
  | [_], _, _ => rfl
  | c1 :: c2 :: rest, i, acc => by
    by_cases h : test c1 c2 = true
    · have hc2r : declLast2 test (c2 :: rest) = (declLast2 test rest).map (· + 1) := by
        cases h2 : declLast2 test rest with
        | some e => rw [declLast2, h2]; rfl
        | none =>
          rw [declLast2, h2]
          cases rest with
          | nil => rfl
          | cons r rr => simp [upd2, hno c1 c2 r h]
      cases h2 : declLast2 test rest with
      | some e =>
        have htop : declLast2 test (c1 :: c2 :: rest) = some (e + 2) := by
          rw [declLast2, hc2r, h2]; rfl
        rw [lastEnd2, if_pos h, lastEnd2_decl test hno rest (i + 2) _, h2, htop]
        dsimp [shiftOr]
        congr 1
        omega
      | none =>
        have htop : declLast2 test (c1 :: c2 :: rest) = some 2 := by
          rw [declLast2, hc2r, h2]; simp [upd2, h]
        rw [lastEnd2, if_pos h, lastEnd2_decl test hno rest (i + 2) _, h2, htop]
        rfl
    · have h' : test c1 c2 = false := by simpa using h
      cases h2 : declLast2 test (c2 :: rest) with
      | some e =>
        have htop : declLast2 test (c1 :: c2 :: rest) = some (e + 1) := by
          rw [declLast2, h2]; rfl
        rw [lastEnd2, if_neg h, lastEnd2_decl test hno (c2 :: rest) (i + 1) _, h2, htop]
        dsimp [shiftOr]
        congr 1
        omega
      | none =>
        have htop : declLast2 test (c1 :: c2 :: rest) = none := by
          rw [declLast2, h2]; simp [upd2, h']
        rw [lastEnd2, if_neg h, lastEnd2_decl test hno (c2 :: rest) (i + 1) _, h2, htop]
        rfl

theorem p1hit_false_of_vietCap (prev : Option Char) (c c4 c5 : Char)
    (h : isVietCap c = true) : p1hit prev c c4 c5 = false := by
  rcases eq_or_ne c '.' with rfl | hne
  · exact absurd h (by decide)
  · simp [p1hit, hne]

theorem p1hit_false_of_space (prev : Option Char) (c4 c5 : Char) :
    p1hit prev ' ' c4 c5 = false := by
  simp [p1hit]

theorem p1scan_decl :
    ∀ (s : List Char) (prev : Option Char) (i : ℕ) (acc : Option ℕ),
      p1scan prev s i acc = shiftOr i acc (declP1 prev s)
  | [], _, _, _ => rfl
  | [_], _, _, _ => rfl
  | [_, _], _, _, _ => rfl
  | c1 :: c2 :: c3 :: rest, prev, i, acc => by
    by_cases h : p1hit prev c1 c2 c3 = true
    · have hc2 : c2 = ' ' := by
        have hh := h
        simp only [p1hit, Bool.and_eq_true, decide_eq_true_eq] at hh
        exact hh.1.1.2
      have hc3 : isVietCap c3 = true := by
        have hh := h
        simp only [p1hit, Bool.and_eq_true] at hh
        exact hh.1.2
      have hinner2 : declP1 (some c2) (c3 :: rest) = (declP1 (some c3) rest).map (· + 1) := by
        cases h3 : declP1 (some c3) rest with
        | some e => rw [declP1, h3]; rfl
        | none =>
          rw [declP1, h3]
          cases rest with
          | nil => rfl
          | cons c4 rr =>
            cases rr with
            | nil => rfl
            | cons c5 rrr => simp [upd3, p1hit_false_of_vietCap (some c2) c3 c4 c5 hc3]
      have hinner1 : declP1 (some c1) (c2 :: c3 :: rest) =
          (declP1 (some c3) rest).map (· + 2) := by
        rw [declP1, hinner2]
        cases h3 : declP1 (some c3) rest with
        | some e => rfl
        | none =>
          cases rest with
          | nil => rfl
          | cons c4 rr =>
            subst hc2
            simp [upd3, p1hit_false_of_space (some c1) c3 c4]
      cases h3 : declP1 (some c3) rest with
      | some e =>
        have htop : declP1 prev (c1 :: c2 :: c3 :: rest) = some (e + 3) := by
          rw [declP1, hinner1, h3]; rfl
        rw [p1scan, if_pos h, p1scan_decl rest (some c3) (i + 3) _, h3, htop]
        dsimp [shiftOr]
        congr 1
        omega
      | none =>
        have htop : declP1 prev (c1 :: c2 :: c3 :: rest) = some 3 := by
          rw [declP1, hinner1, h3]; simp [upd3, h]
        rw [p1scan, if_pos h, p1scan_decl rest (some c3) (i + 3) _, h3, htop]
        rfl
    · have h' : p1hit prev c1 c2 c3 = false := by simpa using h
      cases h2 : declP1 (some c1) (c2 :: c3 :: rest) with
      | some e =>
        have htop : declP1 prev (c1 :: c2 :: c3 :: rest) = some (e + 1) := by
          rw [declP1, h2]; rfl
        rw [p1scan, if_neg h, p1scan_decl (c2 :: c3 :: rest) (some c1) (i + 1) _, h2, htop]
        dsimp [shiftOr]
        congr 1
        omega
      | none =>
        have htop : declP1 prev (c1 :: c2 :: c3 :: rest) = none := by
          rw [declP1, h2]; simp [upd3, h']
        rw [p1scan, if_neg h, p1scan_decl (c2 :: c3 :: rest) (some c1) (i + 1) _, h2, htop]
        rfl

theorem dotNl_nooverlap : ∀ a b c, dotNlTest a b = true → dotNlTest b c = false := by
  intro a b c h
  simp only [dotNlTest, Bool.and_eq_true, decide_eq_true_eq] at h
  simp [dotNlTest, h.2]

theorem exclSp_nooverlap : ∀ a b c, exclSpTest a b = true → exclSpTest b c = false := by
  intro a b c h
  simp only [exclSpTest, Bool.and_eq_true, decide_eq_true_eq] at h
  simp [exclSpTest, h.2]

set_option maxRecDepth 40000 in
/-- C5 counterexample: on a window whose only cue in the scanned range is a
period followed by a space and a lowercase letter (plus a bare line break at
offset 159), the claim's reading of the boundary search returns the sentence
cut `(152, complete)`, while the code — whose rule (b) requires a capital
letter after the space, and whose rule (c) accepts line breaks only in the
last 100 characters — returns the line-break cut `(159, incomplete)`. -/
theorem boundary_claim_counterexample :
    findSentenceBoundary boundaryCex 250 = ((159 : ℤ), false) ∧
      findBoundaryClaim boundaryCex 250 = (152, true) := by
  constructor
  · decide
  · decide

/-- C5 (amended): for windows of at least 100 characters the boundary search
equals the declarative four-rule search with the code's actual windows:
(a) the last blank-line break at or beyond `0.6·max_pos` (complete);
else (b) the last of the three sentence patterns — period-space-capital with
a not-after-`[A-Z]` lookbehind, period-newline, or `!`/`?`-space — scanned in
`[max(0.6·max_pos, max_pos−300), max_pos)` (complete); else (c) the last bare
line break, accepted only strictly beyond `max_pos − 100` (incomplete);
else (d) a hard cut at `max_pos` (incomplete). -/
theorem boundary_amended_spec (text : List Char) (maxPos : ℕ) (h : 100 ≤ maxPos) :
    findSentenceBoundary text maxPos =
      (((findBoundaryAmended text maxPos).1 : ℤ), (findBoundaryAmended text maxPos).2) := by
  unfold findSentenceBoundary findBoundaryAmended boundarySentencePhase boundaryNewlinePhase
  simp only [p1scan_decl, lastEnd2_decl dotNlTest dotNl_nooverlap,
    lastEnd2_decl exclSpTest exclSp_nooverlap, lastIdx1_decl, shiftOr_zero_none]
  cases hpara : lastEnd2 paraTest (text.take maxPos) 0 none with
  | some e =>
    by_cases he : 6 * maxPos / 10 ≤ e
    · simp [he]
    · simp only [he, if_false, if_neg he]
      cases hp1 : declP1 none ((text.take maxPos).drop (max (6 * maxPos / 10) (maxPos - 300))) with
      | some e1 => simp
      | none =>
        simp only
        cases hp2 : declLast2 dotNlTest
            ((text.take maxPos).drop (max (6 * maxPos / 10) (maxPos - 300))) with
        | some e2 => simp
        | none =>
          simp only
          cases hp3 : declLast2 exclSpTest
              ((text.take maxPos).drop (max (6 * maxPos / 10) (maxPos - 300))) with
          | some e3 => simp
          | none =>
            simp only
            cases hnl : declLastIdx (fun c => decide (c = '\n')) (text.take maxPos) with
            | some p =>
              by_cases hgt : maxPos - 100 < p
              · have hgtz : (maxPos : ℤ) - 100 < (p : ℤ) := by omega
                simp [hgt, hgtz]
              · have hgtz : ¬ ((maxPos : ℤ) - 100 < (p : ℤ)) := by omega
                simp [hgt, hgtz]
            | none =>
              have hneg : ¬ ((maxPos : ℤ) - 100 < (-1 : ℤ)) := by omega
              simp [hneg]
  | none =>
    simp only
    cases hp1 : declP1 none ((text.take maxPos).drop (max (6 * maxPos / 10) (maxPos - 300))) with
    | some e1 => simp
    | none =>
      simp only
      cases hp2 : declLast2 dotNlTest
          ((text.take maxPos).drop (max (6 * maxPos / 10) (maxPos - 300))) with
      | some e2 => simp
      | none =>
        simp only
        cases hp3 : declLast2 exclSpTest
            ((text.take maxPos).drop (max (6 * maxPos / 10) (maxPos - 300))) with
        | some e3 => simp
        | none =>
          simp only
          cases hnl : declLastIdx (fun c => decide (c = '\n')) (text.take maxPos) with
          | some p =>
            by_cases hgt : maxPos - 100 < p
            · have hgtz : (maxPos : ℤ) - 100 < (p : ℤ) := by omega
              simp [hgt, hgtz]
            · have hgtz : ¬ ((maxPos : ℤ) - 100 < (p : ℤ)) := by omega
              simp [hgt, hgtz]
          | none =>
            have hneg : ¬ ((maxPos : ℤ) - 100 < (-1 : ℤ)) := by omega
            simp [hneg]

/-- C5 witness: `boundary_amended_spec` instantiated at a concrete window. -/
theorem boundary_amended_spec_witness :
    findSentenceBoundary [] 250 =
      (((findBoundaryAmended [] 250).1 : ℤ), (findBoundaryAmended [] 250).2) :=
  boundary_amended_spec [] 250 (by norm_num)

/-! ### Segmenter fallback: `viLower` facts -/

theorem lookup_mem_pairs : ∀ (l : List (Char × Char)) (a b : Char),
    l.lookup a = some b → (a, b) ∈ l
  | [], _, _ => by intro h; simp [List.lookup] at h
  | (k, v) :: es, a, b => by
    intro h
    by_cases hk : a = k
    · subst hk
      rw [List.lookup] at h
      simp only [beq_self_eq_true] at h
      cases h
      exact List.mem_cons_self _ _
    · rw [List.lookup] at h
      have hbe : (a == k) = false := by simp [hk]
      rw [hbe] at h
      exact List.mem_cons_of_mem _ (lookup_mem_pairs es a b h)

set_option maxRecDepth 8000 in
theorem lowerTable_snd_none : ∀ pr ∈ lowerTable, lowerTable.lookup pr.2 = none := by
  decide

theorem viLower_idem (c : Char) : viLower (viLower c) = viLower c := by
  unfold viLower
  cases hl : lowerTable.lookup c with
  | none => simp [hl]
  | some v =>
    have hv := lowerTable_snd_none (c, v) (lookup_mem_pairs lowerTable c v hl)
    simp [hl, hv]

/-! ### Segmenter fallback: `reSub` unfolding and decomposition -/

theorem reSub_nil (p : Pat) : reSub p [] = [] := by
  rw [reSub]

theorem reSub_cons_some (p : Pat) (c : Char) (rest r : List Char)
    (h : tryHit p (c :: rest) = some r) :
    reSub p (c :: rest) = joined p ++ reSub p r := by
  rw [reSub]
  split
  · rename_i r' heq
    rw [h] at heq
    cases heq
    rfl
  · rename_i heq
    rw [h] at heq
    cases heq

theorem reSub_cons_none (p : Pat) (c : Char) (rest : List Char)
    (h : tryHit p (c :: rest) = none) :
    reSub p (c :: rest) = c :: reSub p rest := by
  rw [reSub]
  split
  · rename_i r' heq
    rw [h] at heq
    cases heq
  · rfl

theorem tryHit_nil (p : Pat) : tryHit p [] = none := by
  simp [tryHit, Syl.chars, dropLit]

theorem dropLit_decompose : ∀ (u s r : List Char), dropLit u s = some r → s = u ++ r
  | [], s, r => by
    intro h
    simp only [dropLit, Option.some.injEq] at h
    simp [h]
  | _ :: _, [], _ => by intro h; cases h
  | c :: cs, d :: ds, r => by
    intro h
    by_cases hc : c = d
    · rw [dropLit, if_pos hc] at h
      rw [List.cons_append, ← hc, dropLit_decompose cs ds r h]
    · rw [dropLit, if_neg hc] at h
      cases h

theorem dropWSall_decompose : ∀ s : List Char,
    ∃ w, s = w ++ dropWSall s ∧ (∀ ch ∈ w, isWS ch = true)
  | [] => ⟨[], rfl, by simp⟩
  | c :: rest => by
    by_cases hc : isWS c = true
    · obtain ⟨w, hw, hww⟩ := dropWSall_decompose rest
      refine ⟨c :: w, ?_, ?_⟩
      · rw [dropWSall, if_pos hc, List.cons_append, ← hw]
      · intro ch hch
        rcases List.mem_cons.mp hch with rfl | hch'
        · exact hc
        · exact hww ch hch'
    · refine ⟨[], ?_, by simp⟩
      rw [dropWSall, if_neg hc, List.nil_append]

theorem dropWS1_decompose (s r : List Char) (h : dropWS1 s = some r) :
    ∃ w, s = w ++ r ∧ w ≠ [] ∧ (∀ ch ∈ w, isWS ch = true) := by
  cases s with
  | nil => cases h
  | cons c rest =>
    rw [dropWS1] at h
    split at h
    · cases h
      obtain ⟨w, hw, hww⟩ := dropWSall_decompose rest
      refine ⟨c :: w, by rw [List.cons_append, ← hw], List.cons_ne_nil _ _, ?_⟩
      intro ch hch
      rcases List.mem_cons.mp hch with rfl | hch'
      · assumption
      · exact hww ch hch'
    · cases h

theorem dropTail_decompose : ∀ (ls : List Syl) (s r : List Char),
    dropTail ls s = some r → ∃ x, s = x ++ r ∧ ConsTail ls x
  | [], s, r => by
    intro h
    simp only [dropTail, Option.some.injEq] at h
    exact ⟨[], by simp [h], rfl⟩
  | l :: ls, s, r => by
    intro h
    rw [dropTail] at h
    cases h1 : dropWS1 s with
    | none => rw [h1] at h; cases h
    | some s1 =>
      rw [h1] at h
      dsimp only at h
      cases h2 : dropLit l.chars s1 with
      | none => rw [h2] at h; cases h
      | some s2 =>
        rw [h2] at h
        obtain ⟨w, hw, hwne, hww⟩ := dropWS1_decompose s s1 h1
        have hlit := dropLit_decompose l.chars s1 s2 h2
        obtain ⟨x', hx', hct⟩ := dropTail_decompose ls s2 r h
        refine ⟨w ++ (l.chars ++ x'), ?_, w, x', rfl, hwne, hww, hct⟩
        rw [hw, hlit, hx']
        simp [List.append_assoc]

theorem tryHit_decompose (p : Pat) (s r : List Char) (h : tryHit p s = some r) :
    ∃ x, s = p.first.chars ++ (x ++ r) ∧ ConsTail p.rest x := by
  rw [tryHit] at h
  cases h1 : dropLit p.first.chars s with
  | none => rw [h1] at h; cases h
  | some s1 =>
    rw [h1] at h
    obtain ⟨x, hx, hct⟩ := dropTail_decompose p.rest s1 r h
    exact ⟨x, by rw [dropLit_decompose _ _ _ h1, hx], hct⟩

theorem segView_reSub (p : Pat) : ∀ s : List Char, SegView p s (reSub p s)
  | [] => by rw [reSub_nil]; exact .nil
  | c :: rest => by
    cases h : tryHit p (c :: rest) with
    | none =>
      rw [reSub_cons_none p c rest h]
      exact .keep c (segView_reSub p rest)
    | some r =>
      obtain ⟨x, hx, hct⟩ := tryHit_decompose p (c :: rest) r h
      rw [reSub_cons_some p c rest r h, hx, joined, List.append_assoc]
      exact .block hct (segView_reSub p r)
termination_by s => s.length
decreasing_by
  · simp
  · exact tryHit_shrink p (c :: rest) r h

/-! ### Segmenter fallback: transfer of matches from output to input -/

theorem chars_append (s : Syl) (z : List Char) :
    Syl.chars s ++ z = s.hd :: (s.tl ++ z) := rfl

theorem good_first_hd (p : Pat) (hp : GoodPat p) :
    isWS p.first.hd = false ∧ p.first.hd ≠ '_' :=
  hp.1 p.first (List.mem_cons_self _ _) p.first.hd (by simp [Syl.chars])

theorem good_first_tl (p : Pat) (hp : GoodPat p) :
    ∀ ch ∈ p.first.tl, isWS ch = false ∧ ch ≠ '_' :=
  fun ch hch => hp.1 p.first (List.mem_cons_self _ _) ch (by simp [Syl.chars, hch])

theorem dropWSall_nonws_head (c : Char) (z : List Char) (hc : isWS c = false) :
    dropWSall (c :: z) = c :: z := by
  rw [dropWSall, if_neg (by simp [hc])]

theorem segView_dropWSall (q : Pat) (hq : GoodPat q) :
    ∀ {t o : List Char}, SegView q t o → SegView q (dropWSall t) (dropWSall o) := by
  intro t o h
  induction h with
  | nil => exact .nil
  | keep c hs ih =>
    by_cases hc : isWS c = true
    · rw [dropWSall, if_pos hc, dropWSall, if_pos hc]
      exact ih
    · rw [dropWSall, if_neg hc, dropWSall, if_neg hc]
      exact .keep c hs
  | block hct hs _ =>
    have hhd : isWS q.first.hd = false := (good_first_hd q hq).1
    rw [chars_append, chars_append, dropWSall_nonws_head _ _ hhd,
      dropWSall_nonws_head _ _ hhd, ← chars_append, ← chars_append]
    exact .block hct hs

theorem stepWS_seg (q : Pat) (hq : GoodPat q) {t o : List Char} (h : SegView q t o)
    {o2 : List Char} (ho : dropWS1 o = some o2) :
    ∃ t2, dropWS1 t = some t2 ∧ SufRel q t2 o2 := by
  cases h with
  | nil => cases ho
  | keep c hs =>
    rename_i t' o'
    by_cases hc : isWS c = true
    · rw [dropWS1, if_pos hc] at ho
      cases ho
      exact ⟨dropWSall t', by rw [dropWS1, if_pos hc],
        SufRel.seg (segView_dropWSall q hq hs)⟩
    · rw [dropWS1, if_neg hc] at ho
      cases ho
  | block hct hs =>
    have hhd : isWS q.first.hd = false := (good_first_hd q hq).1
    rw [chars_append, dropWS1, if_neg (by simp [hhd])] at ho
    cases ho

theorem stepWS (q : Pat) (hq : GoodPat q) {t o : List Char} (h : SufRel q t o)
    {o2 : List Char} (ho : dropWS1 o = some o2) :
    ∃ t2, dropWS1 t = some t2 ∧ SufRel q t2 o2 := by
  cases h with
  | seg hs => exact stepWS_seg q hq hs ho
  | mid rem syls hrem hremu hct hs =>
    cases rem with
    | cons rc rem' =>
      have hrc : isWS rc = false := hrem rc (List.mem_cons_self _ _)
      rw [List.cons_append, dropWS1, if_neg (by simp [hrc])] at ho
      cases ho
    | nil =>
      cases syls with
      | cons s1 ss =>
        rw [List.nil_append,
          show underTail (s1 :: ss) = '_' :: (s1.chars ++ underTail ss) from rfl,
          List.cons_append, dropWS1, if_neg (by decide)] at ho
        cases ho
      | nil =>
        rename_i x t' o'
        have hx : x = [] := hct
        subst hx
        have hun : underTail ([] : List Syl) = [] := rfl
        simp only [List.nil_append, hun] at ho ⊢
        exact stepWS_seg q hq hs ho

theorem stepLit (q : Pat) (hq : GoodPat q) :
    ∀ (u : List Char), '_' ∉ u → ∀ {t o : List Char}, SufRel q t o →
      ∀ {o2 : List Char}, dropLit u o = some o2 →
        ∃ t2, dropLit u t = some t2 ∧ SufRel q t2 o2 := by
  intro u
  induction u with
  | nil =>
    intro _ t o h o2 ho
    simp only [dropLit, Option.some.injEq] at ho
    subst ho
    exact ⟨t, rfl, h⟩
  | cons a u' ih =>
    intro hu t o h o2 ho
    have hu' : '_' ∉ u' := fun hm => hu (List.mem_cons_of_mem _ hm)
    have ha : a ≠ '_' := fun he => hu (he ▸ List.mem_cons_self _ _)
    cases h with
    | seg hs =>
      cases hs with
      | nil => cases ho
      | keep c hs' =>
        by_cases hac : a = c
        · subst hac
          rw [dropLit, if_pos rfl] at ho
          obtain ⟨t2, h1, h2⟩ := ih hu' (SufRel.seg hs') ho
          exact ⟨t2, by rw [dropLit, if_pos rfl]; exact h1, h2⟩
        · rw [dropLit, if_neg hac] at ho
          cases ho
      | block hct hs' =>
        rw [chars_append] at ho
        by_cases hac : a = q.first.hd
        · subst hac
          rw [dropLit, if_pos rfl] at ho
          have hrel := SufRel.mid q.first.tl q.rest
            (fun ch hch => ((good_first_tl q hq) ch hch).1)
            (fun hm => ((good_first_tl q hq) '_' hm).2 rfl) hct hs'
          obtain ⟨t2, h1, h2⟩ := ih hu' hrel ho
          refine ⟨t2, ?_, h2⟩
          rw [chars_append, dropLit, if_pos rfl]
          exact h1
        · rw [dropLit, if_neg hac] at ho
          cases ho
    | mid rem syls hrem hremu hct hs =>
      cases rem with
      | cons rc rem' =>
        by_cases hac : a = rc
        · subst hac
          rw [List.cons_append, dropLit, if_pos rfl] at ho
          have hrel := SufRel.mid rem' syls
            (fun ch hch => hrem ch (List.mem_cons_of_mem _ hch))
            (fun hm => hremu (List.mem_cons_of_mem _ hm)) hct hs
          obtain ⟨t2, h1, h2⟩ := ih hu' hrel ho
          refine ⟨t2, ?_, h2⟩
          rw [List.cons_append, dropLit, if_pos rfl]
          exact h1
        · rw [List.cons_append, dropLit, if_neg hac] at ho
          cases ho
      | nil =>
        cases syls with
        | cons s1 ss =>
          rw [List.nil_append,
            show underTail (s1 :: ss) = '_' :: (s1.chars ++ underTail ss) from rfl,
            List.cons_append, dropLit] at ho
          by_cases hac : a = '_'
          · exact absurd hac ha
          · rw [if_neg hac] at ho
            cases ho
        | nil =>
          rename_i x t' o'
          have hx : x = [] := hct
          subst hx
          have hun : underTail ([] : List Syl) = [] := rfl
          simp only [List.nil_append, hun] at ho ⊢
          cases hs with
          | nil => cases ho
          | keep c hs' =>
            by_cases hac : a = c
            · subst hac
              rw [dropLit, if_pos rfl] at ho
              obtain ⟨t2, h1, h2⟩ := ih hu' (SufRel.seg hs') ho
              exact ⟨t2, by rw [dropLit, if_pos rfl]; exact h1, h2⟩
            · rw [dropLit, if_neg hac] at ho
              cases ho
          | block hct' hs' =>
            rw [chars_append] at ho
            by_cases hac : a = q.first.hd
            · subst hac
              rw [dropLit, if_pos rfl] at ho
              have hrel := SufRel.mid q.first.tl q.rest
                (fun ch hch => ((good_first_tl q hq) ch hch).1)
                (fun hm => ((good_first_tl q hq) '_' hm).2 rfl) hct' hs'
              obtain ⟨t2, h1, h2⟩ := ih hu' hrel ho
              refine ⟨t2, ?_, h2⟩
              rw [chars_append, dropLit, if_pos rfl]
              exact h1
            · rw [dropLit, if_neg hac] at ho
              cases ho

theorem stepTail (q : Pat) (hq : GoodPat q) :
    ∀ (syls : List Syl), (∀ syl ∈ syls, '_' ∉ Syl.chars syl) →
      ∀ {t o : List Char}, SufRel q t o → ∀ {o2 : List Char},
        dropTail syls o = some o2 → ∃ t2, dropTail syls t = some t2 ∧ SufRel q t2 o2 := by
  intro syls
  induction syls with
  | nil =>
    intro _ t o h o2 ho
    simp only [dropTail, Option.some.injEq] at ho
    subst ho
    exact ⟨t, rfl, h⟩
  | cons s ss ih =>
    intro hnu t o h o2 ho
    rw [dropTail] at ho
    cases h1 : dropWS1 o with
    | none => rw [h1] at ho; cases ho
    | some o1 =>
      rw [h1] at ho
      dsimp only at ho
      cases h2 : dropLit s.chars o1 with
      | none => rw [h2] at ho; cases ho
      | some o1' =>
        rw [h2] at ho
        obtain ⟨t1, hw, hrel1⟩ := stepWS q hq h h1
        obtain ⟨t1', hl, hrel2⟩ := stepLit q hq s.chars
          (hnu s (List.mem_cons_self _ _)) hrel1 h2
        obtain ⟨t2, hd2, hrel3⟩ :=
          ih (fun syl hsy => hnu syl (List.mem_cons_of_mem _ hsy)) hrel2 ho
        refine ⟨t2, ?_, hrel3⟩
        rw [dropTail, hw]
        dsimp only
        rw [hl]
        exact hd2

theorem transferHit (q p : Pat) (hq : GoodPat q) (hp : GoodPat p)
    {t o : List Char} (h : SufRel q t o) {r : List Char}
    (hr : tryHit p o = some r) : ∃ rr, tryHit p t = some rr := by
  rw [tryHit] at hr
  cases h1 : dropLit p.first.chars o with
  | none => rw [h1] at hr; cases hr
  | some o1 =>
    rw [h1] at hr
    have hnu : '_' ∉ Syl.chars p.first :=
      fun hm => (hp.1 p.first (List.mem_cons_self _ _) '_' hm).2 rfl
    obtain ⟨t1, hl, hrel⟩ := stepLit q hq p.first.chars hnu h h1
    have hnus : ∀ syl ∈ p.rest, '_' ∉ Syl.chars syl :=
      fun syl hs hm => (hp.1 syl (List.mem_cons_of_mem _ hs) '_' hm).2 rfl
    obtain ⟨t2, hd2, _⟩ := stepTail q hq p.rest hnus hrel hr
    refine ⟨t2, ?_⟩
    rw [tryHit, hl]
    exact hd2

/-! ### Segmenter fallback: suffixes of replaced blocks -/

theorem suffix_append_split {α : Type} {l : List α} :
    ∀ (A : List α) {B : List α}, l <:+ A ++ B →
      l <:+ B ∨ ∃ a1, a1 <:+ A ∧ a1 ≠ [] ∧ l = a1 ++ B := by
  intro A
  induction A generalizing l with
  | nil => intro B h; exact Or.inl h
  | cons a A' ih =>
    intro B h
    rcases List.suffix_cons_iff.mp h with rfl | h'
    · exact Or.inr ⟨a :: A', List.suffix_refl _, List.cons_ne_nil _ _, rfl⟩
    · rcases ih h' with h'' | ⟨a1, ha1, hne, rfl⟩
      · exact Or.inl h''
      · exact Or.inr ⟨a1, ha1.trans (List.suffix_cons a A'), hne, rfl⟩

theorem isSuffix_append_right {α : Type} {l1 l2 : List α} (h : l1 <:+ l2)
    (m : List α) : l1 ++ m <:+ l2 ++ m := by
  obtain ⟨w, hw⟩ := h
  exact ⟨w, by rw [← List.append_assoc, hw]⟩

theorem lastSyl_of_suffix (q : Pat) (s : Syl) (h : [s] <:+ q.rest) : lastSyl q = s := by
  obtain ⟨pre, hpre⟩ := h
  rw [lastSyl, ← hpre, List.getLastD_concat]

theorem underSuffix (q : Pat) :
    ∀ (syls : List Syl) (x : List Char), ConsTail syls x →
      (∀ syl ∈ syls, ∀ ch ∈ Syl.chars syl, isWS ch = false ∧ ch ≠ '_') →
      syls <:+ q.rest →
      ∀ j1, j1 <:+ underTail syls → j1 ≠ [] →
      ∃ rem syls2 x2,
        j1 = rem ++ underTail syls2 ∧
        (∀ ch ∈ rem, isWS ch = false) ∧ '_' ∉ rem ∧
        ConsTail syls2 x2 ∧ (rem ++ x2) <:+ x ∧
        (syls2 = [] → rem = [] ∨ rem <:+ Syl.chars (lastSyl q)) := by
  intro syls
  induction syls with
  | nil =>
    intro x _ _ _ j1 hj1 hne
    have hun : underTail ([] : List Syl) = [] := rfl
    rw [hun] at hj1
    exact absurd (List.suffix_nil.mp hj1) hne
  | cons s ss ih =>
    intro x hct hchars hsuf j1 hj1 hne
    obtain ⟨w, x', hx, hwne, hww, hct'⟩ := hct
    have hut : underTail (s :: ss) = '_' :: (s.chars ++ underTail ss) := rfl
    rw [hut] at hj1
    rcases List.suffix_cons_iff.mp hj1 with rfl | hj1'
    · refine ⟨[], s :: ss, x, by rw [List.nil_append, hut], by simp, by simp,
        ⟨w, x', hx, hwne, hww, hct'⟩, by rw [List.nil_append], ?_⟩
      intro hcontra
      cases hcontra
    · rcases suffix_append_split s.chars hj1' with hB | ⟨a1, ha1, ha1ne, rfl⟩
      · obtain ⟨rem, syls2, x2, h1, h2, h3, h4, h5, h6⟩ :=
          ih x' hct' (fun syl hsy => hchars syl (List.mem_cons_of_mem _ hsy))
            ((List.suffix_cons s ss).trans hsuf) j1 hB hne
        refine ⟨rem, syls2, x2, h1, h2, h3, h4, ?_, h6⟩
        rw [hx]
        exact h5.trans ((List.suffix_append s.chars x').trans
          (List.suffix_append w (s.chars ++ x')))
      · refine ⟨a1, ss, x', rfl, ?_, ?_, hct', ?_, ?_⟩
        · intro ch hch
          exact (hchars s (List.mem_cons_self _ _) ch (ha1.subset hch)).1
        · intro hm
          exact (hchars s (List.mem_cons_self _ _) '_' (ha1.subset hm)).2 rfl
        · rw [hx]
          exact (isSuffix_append_right ha1 x').trans
            (List.suffix_append w (s.chars ++ x'))
        · intro hss
          subst hss
          right
          rw [lastSyl_of_suffix q s hsuf]
          exact ha1

/-! ### Segmenter fallback: match failure inside replaced blocks -/

theorem dropLit_split : ∀ (u A B r : List Char), dropLit u (A ++ B) = some r →
    (∃ A', A = u ++ A' ∧ r = A' ++ B) ∨ (∃ u', u = A ++ u' ∧ dropLit u' B = some r)
  | [], A, _, r => fun h => by
    simp only [dropLit, Option.some.injEq] at h
    exact Or.inl ⟨A, by simp, h.symm⟩
  | a :: u', A, B, r => fun h => by
    cases A with
    | nil => exact Or.inr ⟨a :: u', rfl, h⟩
    | cons b A'' =>
      rw [List.cons_append, dropLit] at h
      by_cases hab : a = b
      · rw [if_pos hab] at h
        rcases dropLit_split u' A'' B r h with ⟨A', hA, hr⟩ | ⟨u'', hu, hd⟩
        · refine Or.inl ⟨A', ?_, hr⟩
          rw [hA, ← hab]
          rfl
        · refine Or.inr ⟨u'', ?_, hd⟩
          rw [hu, hab]
          rfl
      · rw [if_neg hab] at h
        cases h

theorem isPre_refl : ∀ l : List Char, isPre l l = true
  | [] => rfl
  | c :: cs => by rw [isPre]; simp [isPre_refl cs]

theorem isPre_append_self : ∀ l m : List Char, isPre l (l ++ m) = true
  | [], _ => rfl
  | c :: cs, m => by rw [List.cons_append, isPre]; simp [isPre_append_self cs m]

theorem rest_exists (p : Pat) (hp : GoodPat p) : ∃ a b, p.rest = a :: b := by
  cases h : p.rest with
  | nil => exact absurd h hp.2.1
  | cons a b => exact ⟨a, b, rfl⟩

theorem tryHit_fail_before_underscore (p : Pat) (hp : GoodPat p) (rem z : List Char)
    (hremw : ∀ ch ∈ rem, isWS ch = false) :
    tryHit p (rem ++ '_' :: z) = none := by
  rw [tryHit]
  cases hd : dropLit p.first.chars (rem ++ '_' :: z) with
  | none => rfl
  | some s1 =>
    show dropTail p.rest s1 = none
    obtain ⟨s2, ss2, hrest⟩ := rest_exists p hp
    rcases dropLit_split p.first.chars rem ('_' :: z) s1 hd with
      ⟨A', hA, hr⟩ | ⟨u', hu, hdrop⟩
    · subst hr
      rw [hrest]
      cases A' with
      | nil =>
        simp [dropTail, dropWS1, show isWS '_' = false from by decide]
      | cons c0 A'' =>
        have hc0 : isWS c0 = false := hremw c0 (by
          rw [hA]; exact List.mem_append_right _ (List.mem_cons_self _ _))
        simp [dropTail, dropWS1, hc0]
    · cases u' with
      | nil =>
        have hs1 : s1 = '_' :: z := by
          have := hdrop
          simp only [dropLit, Option.some.injEq] at this
          exact this.symm
        subst hs1
        rw [hrest]
        simp [dropTail, dropWS1, show isWS '_' = false from by decide]
      | cons e u'' =>
        have he : e = '_' := by
          by_contra hne
          rw [dropLit, if_neg hne] at hdrop
          cases hdrop
        have hmem : e ∈ Syl.chars p.first := by
          rw [hu]; exact List.mem_append_right _ (List.mem_cons_self _ _)
        exact absurd he ((hp.1 p.first (List.mem_cons_self _ _) e hmem).2)

theorem tryHit_fail_lastSuffix (p : Pat) (hp : GoodPat p) (rem : List Char)
    (hsuf : rem <:+ Syl.chars (lastSyl p)) (hne : rem ≠ []) (S : List Char) :
    tryHit p (rem ++ S) = none := by
  rw [tryHit]
  cases hd : dropLit p.first.chars (rem ++ S) with
  | none => rfl
  | some s1 =>
    show dropTail p.rest s1 = none
    have hlastmem : lastSyl p ∈ p.first :: p.rest := by
      rw [lastSyl]
      exact List.getLastD_mem_cons p.rest p.first
    have hgood := hp.1 (lastSyl p) hlastmem
    rcases dropLit_split p.first.chars rem S s1 hd with ⟨A', hA, hr⟩ | ⟨u', hu, _⟩
    · cases A' with
      | nil =>
        rw [List.append_nil] at hA
        have hvp : isPre rem (Syl.chars p.first) = true := by
          rw [hA]; exact isPre_refl _
        have hsc3 := hp.2.2 rem ((List.mem_tails _ _).mpr hsuf) hne
        rw [hsc3] at hvp
        cases hvp
      | cons c0 A'' =>
        have hc0mem : c0 ∈ rem := by
          rw [hA]; exact List.mem_append_right _ (List.mem_cons_self _ _)
        have hc0 : isWS c0 = false := (hgood c0 (hsuf.subset hc0mem)).1
        obtain ⟨s2, ss2, hrest⟩ := rest_exists p hp
        subst hr
        rw [hrest]
        simp [dropTail, dropWS1, hc0]
    · have hvp : isPre rem (Syl.chars p.first) = true := by
        rw [hu]; exact isPre_append_self rem u'
      have hsc3 := hp.2.2 rem ((List.mem_tails _ _).mpr hsuf) hne
      rw [hsc3] at hvp
      cases hvp

/-! ### Segmenter fallback: no matches survive a substitution pass -/

theorem noHit_nil (p : Pat) : NoHit p [] := fun s' hs' => by
  rw [List.suffix_nil.mp hs']
  exact tryHit_nil p

theorem noHit_of_cons {p : Pat} {c : Char} {rest : List Char}
    (h : NoHit p (c :: rest)) : NoHit p rest :=
  fun s' hs' => h s' (hs'.trans (List.suffix_cons c rest))

theorem noHit_of_suffix {p : Pat} {s t : List Char} (hsub : t <:+ s)
    (h : NoHit p s) : NoHit p t :=
  fun s' hs' => h s' (hs'.trans hsub)

theorem noHit_reSub (p : Pat) (hp : GoodPat p) : ∀ s : List Char, NoHit p (reSub p s)
  | [] => by
    rw [reSub_nil]
    exact noHit_nil p
  | c :: rest => by
    cases h : tryHit p (c :: rest) with
    | none =>
      rw [reSub_cons_none p c rest h]
      intro s' hs'
      rcases List.suffix_cons_iff.mp hs' with rfl | hs''
      · cases htry : tryHit p (c :: reSub p rest) with
        | none => rfl
        | some r =>
          obtain ⟨rr, hrr⟩ := transferHit p p hp hp
            (SufRel.seg (SegView.keep c (segView_reSub p rest))) htry
          rw [h] at hrr
          cases hrr
      · exact noHit_reSub p hp rest s' hs''
    | some r =>
      obtain ⟨x, hx, hct⟩ := tryHit_decompose p (c :: rest) r h
      rw [reSub_cons_some p c rest r h, joined, List.append_assoc]
      intro s' hs'
      rcases suffix_append_split (Syl.chars p.first) hs' with hsA | ⟨a1, ha1, ha1ne, rfl⟩
      · rcases suffix_append_split (underTail p.rest) hsA with hsB | ⟨u1, hu1, hu1ne, rfl⟩
        · exact noHit_reSub p hp r s' hsB
        · obtain ⟨rem, syls2, x2, hj, hremw, _, _, _, hlast⟩ :=
            underSuffix p p.rest x hct
              (fun syl hsy => hp.1 syl (List.mem_cons_of_mem _ hsy))
              (List.suffix_refl _) u1 hu1 hu1ne
          cases syls2 with
          | nil =>
            rcases hlast rfl with rfl | hremlast
            · exact absurd (by rw [hj]; rfl) hu1ne
            · have hremne : rem ≠ [] := by
                intro hr0
                subst hr0
                exact hu1ne (by rw [hj]; rfl)
              have hju : u1 = rem := by
                rw [hj, show underTail ([] : List Syl) = [] from rfl, List.append_nil]
              rw [hju]
              exact tryHit_fail_lastSuffix p hp rem hremlast hremne (reSub p r)
          | cons s2 ss2 =>
            rw [hj, show underTail (s2 :: ss2) = '_' :: (s2.chars ++ underTail ss2) from rfl,
              List.append_assoc]
            exact tryHit_fail_before_underscore p hp rem _ hremw
      · obtain ⟨s2, ss2, hrest⟩ := rest_exists p hp
        rw [hrest, show underTail (s2 :: ss2) = '_' :: (s2.chars ++ underTail ss2) from rfl]
        exact tryHit_fail_before_underscore p hp a1 _
          (fun ch hch => (hp.1 p.first (List.mem_cons_self _ _) ch (ha1.subset hch)).1)
termination_by s => s.length
decreasing_by
  · simp
  · exact tryHit_shrink p (c :: rest) r h

theorem noHit_preserved (p q : Pat) (hp : GoodPat p) (hq : GoodPat q) :
    ∀ s : List Char, NoHit p s → NoHit p (reSub q s)
  | [] => by
    intro hn
    rw [reSub_nil]
    exact hn
  | c :: rest => by
    intro hn
    cases h : tryHit q (c :: rest) with
    | none =>
      rw [reSub_cons_none q c rest h]
      intro s' hs'
      rcases List.suffix_cons_iff.mp hs' with rfl | hs''
      · cases htry : tryHit p (c :: reSub q rest) with
        | none => rfl
        | some r =>
          obtain ⟨rr, hrr⟩ := transferHit q p hq hp
            (SufRel.seg (SegView.keep c (segView_reSub q rest))) htry
          rw [hn (c :: rest) (List.suffix_refl _)] at hrr
          cases hrr
      · exact noHit_preserved p q hp hq rest (noHit_of_cons hn) s' hs''
    | some r =>
      obtain ⟨x, hx, hct⟩ := tryHit_decompose q (c :: rest) r h
      have hnr : NoHit p r := noHit_of_suffix (by
        rw [hx]
        exact (List.suffix_append x r).trans
          (List.suffix_append (Syl.chars q.first) (x ++ r))) hn
      rw [reSub_cons_some q c rest r h, joined, List.append_assoc]
      intro s' hs'
      rcases suffix_append_split (Syl.chars q.first) hs' with hsA | ⟨a1, ha1, ha1ne, rfl⟩
      · rcases suffix_append_split (underTail q.rest) hsA with hsB | ⟨u1, hu1, hu1ne, rfl⟩
        · exact noHit_preserved p q hp hq r hnr s' hsB
        · cases htry : tryHit p (u1 ++ reSub q r) with
          | none => rfl
          | some rx =>
            obtain ⟨rem, syls2, x2, hj, hremw, hremu, hct2, hsufx, _⟩ :=
              underSuffix q q.rest x hct
                (fun syl hsy => hq.1 syl (List.mem_cons_of_mem _ hsy))
                (List.suffix_refl _) u1 hu1 hu1ne
            rw [hj, List.append_assoc] at htry
            obtain ⟨rr, hrr⟩ := transferHit q p hq hp
              (SufRel.mid rem syls2 hremw hremu hct2 (segView_reSub q r)) htry
            have hsufT : (rem ++ (x2 ++ r)) <:+ (c :: rest) := by
              rw [hx, ← List.append_assoc]
              exact (isSuffix_append_right hsufx r).trans
                (List.suffix_append (Syl.chars q.first) (x ++ r))
            rw [hn _ hsufT] at hrr
            cases hrr
      · cases htry : tryHit p (a1 ++ (underTail q.rest ++ reSub q r)) with
        | none => rfl
        | some rx =>
          obtain ⟨rr, hrr⟩ := transferHit q p hq hp
            (SufRel.mid a1 q.rest
              (fun ch hch => (hq.1 q.first (List.mem_cons_self _ _) ch (ha1.subset hch)).1)
              (fun hm => (hq.1 q.first (List.mem_cons_self _ _) '_' (ha1.subset hm)).2 rfl)
              hct (segView_reSub q r)) htry
          have hsufT : (a1 ++ (x ++ r)) <:+ (c :: rest) := by
            rw [hx]
            exact isSuffix_append_right ha1 (x ++ r)
          rw [hn _ hsufT] at hrr
          cases hrr
termination_by s => s.length
decreasing_by
  · simp
  · exact tryHit_shrink q (c :: rest) r h

/-! ### Segmenter fallback: fixpoints and character stability -/

theorem reSub_fix (p : Pat) : ∀ s : List Char, NoHit p s → reSub p s = s
  | [] => fun _ => reSub_nil p
  | c :: rest => fun hn => by
    rw [reSub_cons_none p c rest (hn (c :: rest) (List.suffix_refl _)),
      reSub_fix p rest (noHit_of_cons hn)]

theorem noHit_reSubAll_pres (p : Pat) (hp : GoodPat p) :
    ∀ ps : List Pat, (∀ q ∈ ps, GoodPat q) → ∀ s : List Char,
      NoHit p s → NoHit p (reSubAll ps s)
  | [] => fun _ _ hn => hn
  | q :: rest => fun hg s hn =>
    noHit_reSubAll_pres p hp rest (fun q' hq' => hg q' (List.mem_cons_of_mem _ hq'))
      (reSub q s) (noHit_preserved p q hp (hg q (List.mem_cons_self _ _)) s hn)

theorem noHit_reSubAll (ps : List Pat) (hg : ∀ q ∈ ps, GoodPat q) :
    ∀ s : List Char, ∀ p ∈ ps, NoHit p (reSubAll ps s) := by
  induction ps with
  | nil =>
    intro s p hp
    simp at hp
  | cons q rest ih =>
    intro s p hp
    rcases List.mem_cons.mp hp with rfl | hp'
    · exact noHit_reSubAll_pres p (hg p (List.mem_cons_self _ _)) rest
        (fun q' hq' => hg q' (List.mem_cons_of_mem _ hq')) (reSub p s)
        (noHit_reSub p (hg p (List.mem_cons_self _ _)) s)
    · exact ih (fun q' hq' => hg q' (List.mem_cons_of_mem _ hq')) (reSub q s) p hp'

theorem reSubAll_fix : ∀ (ps : List Pat) (s : List Char),
    (∀ p ∈ ps, NoHit p s) → reSubAll ps s = s
  | [], _, _ => rfl
  | q :: rest, s, hn => by
    show reSubAll rest (reSub q s) = s
    rw [reSub_fix q s (hn q (List.mem_cons_self _ _))]
    exact reSubAll_fix rest s (fun p hp => hn p (List.mem_cons_of_mem _ hp))

theorem reSub_chars (p : Pat) : ∀ (s : List Char) (c : Char),
    c ∈ reSub p s → c ∈ s ∨ c ∈ joined p
  | [], c => by
    rw [reSub_nil]
    intro h
    exact absurd h (List.not_mem_nil c)
  | c0 :: rest, c => by
    cases h : tryHit p (c0 :: rest) with
    | none =>
      rw [reSub_cons_none p c0 rest h]
      intro hc
      rcases List.mem_cons.mp hc with rfl | hc'
      · exact Or.inl (List.mem_cons_self _ _)
      · rcases reSub_chars p rest c hc' with h1 | h2
        · exact Or.inl (List.mem_cons_of_mem _ h1)
        · exact Or.inr h2
    | some r =>
      obtain ⟨x, hx, _⟩ := tryHit_decompose p _ r h
      rw [reSub_cons_some p c0 rest r h]
      intro hc
      rcases List.mem_append.mp hc with h1 | h2
      · exact Or.inr h1
      · rcases reSub_chars p r c h2 with h3 | h4
        · refine Or.inl ?_
          rw [hx]
          exact List.mem_append_right _ (List.mem_append_right _ h3)
        · exact Or.inr h4
termination_by s => s.length
decreasing_by
  · simp
  · exact tryHit_shrink p (c0 :: rest) r h

theorem reSubAll_chars : ∀ (ps : List Pat) (s : List Char) (c : Char),
    c ∈ reSubAll ps s → c ∈ s ∨ ∃ p ∈ ps, c ∈ joined p
  | [], _, _ => fun h => Or.inl h
  | q :: rest, s, c => fun h => by
    rcases reSubAll_chars rest (reSub q s) c h with h1 | ⟨p, hp, hc⟩
    · rcases reSub_chars q s c h1 with h2 | h3
      · exact Or.inl h2
      · exact Or.inr ⟨q, List.mem_cons_self _ _, h3⟩
    · exact Or.inr ⟨p, List.mem_cons_of_mem _ hp, hc⟩

set_option maxRecDepth 16000 in
theorem goodAll : ∀ p ∈ medicalCompounds, GoodPat p := by decide

set_option maxRecDepth 16000 in
theorem joined_lower_fixed : ∀ p ∈ medicalCompounds, ∀ c ∈ joined p, viLower c = c := by
  decide

theorem fallback_chars_fixed (t : List Char) :
    ∀ c ∈ segment_fallback t, viLower c = c := by
  intro c hc
  rcases reSubAll_chars medicalCompounds (t.map viLower) c hc with h1 | ⟨p, hp, hcj⟩
  · obtain ⟨a, _, rfl⟩ := List.mem_map.mp h1
    exact viLower_idem a
  · exact joined_lower_fixed p hp c hcj

/-- C9: the segmenter's rule-based fallback is idempotent — applying it
twice yields the same string as applying it once, for every input.  (The
output is already lowercase, and a second pass of every compound
substitution finds no occurrence left to rewrite.) -/
theorem segment_fallback_idem (text : List Char) :
    segment_fallback (segment_fallback text) = segment_fallback text := by
  have hmap : (segment_fallback text).map viLower = segment_fallback text := by
    rw [List.map_congr_left (fun c hc => fallback_chars_fixed text c hc)]
    exact List.map_id _
  show reSubAll medicalCompounds ((segment_fallback text).map viLower) =
    segment_fallback text
  rw [hmap]
  exact reSubAll_fix medicalCompounds _
    (fun p hp => noHit_reSubAll medicalCompounds goodAll (text.map viLower) p hp)

end VieMedChat
